import Mathlib

/-!
Verification of the VM segregation engine (`SegregationAlgorithm.py` and its
simplified variant `SegregationAlgorithm2.py`).

The Python code is shallowly embedded: hosts and virtual machines become Lean
structures; the mutable fleet (the set of live `Host` objects) becomes a
`List Host` threaded through every operation, with hosts addressed by their
`host_id` (Python `Host.__eq__` compares `host_id` only, and VM identity is
its `vm_id`, unique within a fleet).  Python strings are embedded as `List
Char`.  Python `sorted` (a stable sort) is embedded as a stable structural
insertion sort under the comparison induced by the sort key;
`sorted(..., reverse=True)` becomes the stable sort under the reversed
comparison, which has the same ties-keep-input-order behaviour (a stable
sort under a total preorder is unique, so the choice of stable algorithm is
immaterial).  Exceptions become explicit outcome values.
-/

namespace Seg

/-- Virtual machine record (`VM.__init__`).  `os_template` is a character
list; `affinity_group` is `none` for Python `None`. -/
structure VM where
  vm_id : Nat
  os_template : List Char
  memory_required : Int
  affinity_group : Option (List Char)
  deriving DecidableEq, Repr

/-- `VM.has_affinity`: Python `bool(self.affinity_group)` — `None` and the
empty string are falsy. -/
def VM.has_affinity (vm : VM) : Bool :=
  match vm.affinity_group with
  | none => false
  | some s => !s.isEmpty

/-- `VM.is_windows`: the lower-cased template starts with `"win"`. -/
def VM.is_windows (vm : VM) : Bool :=
  List.isPrefixOf [ 'w', 'i', 'n' ] (vm.os_template.map Char.toLower)

/-- Host record (`Host.__init__`). -/
structure Host where
  host_id : Nat
  vms : List VM
  memory_total : Int
  memory_used : Int
  memory_allocated : Int
  dedicated : Bool
  deriving DecidableEq, Repr

/-- `Host.memory_free` property. -/
def Host.memory_free (h : Host) : Int :=
  h.memory_total - h.memory_allocated

/-- `Host.amount_of_vms` property. -/
def Host.amount_of_vms (h : Host) : Nat :=
  h.vms.length

/-- `Host.is_full` property. -/
def Host.is_full (h : Host) : Bool :=
  if h.memory_free > 512 * 1024 * 1024 then false else true

/-- `Host.append_vm`: add the memory first, then append the VM. -/
def Host.append_vm (h : Host) (vm : VM) : Host :=
  { h with memory_allocated := h.memory_allocated + vm.memory_required,
           vms := h.vms ++ [vm] }

/-- Python `list.remove` keyed on VM identity (`vm_id`): drop the first
occurrence, `none` when absent (`ValueError`). -/
def removeVmById (vid : Nat) : List VM → Option (List VM)
  | [] => none
  | v :: rest =>
    if v.vm_id == vid then some rest
    else (removeVmById vid rest).map (fun l => v :: l)

/-- `Host.remove_vm`: the memory decrement happens before `list.remove`, so
on a failed removal (`ValueError`, second component `false`) the host keeps
the decremented `memory_allocated` with its VM list unchanged. -/
def Host.remove_vm (h : Host) (vm : VM) : Host × Bool :=
  let h1 : Host := { h with memory_allocated := h.memory_allocated - vm.memory_required }
  match removeVmById vm.vm_id h.vms with
  | some l => ({ h1 with vms := l }, true)
  | none => (h1, false)

/-- `Host.amount_of_windows_vms`: count windows VMs, optionally skipping
those with an affinity group. -/
def Host.amount_of_windows_vms (h : Host) (filter_affinity : Bool) : Nat :=
  (h.vms.filter VM.is_windows).countP
    (fun vm => if filter_affinity then !vm.has_affinity else true)

/-- `Host.is_dedicated`. -/
def Host.is_dedicated (h : Host) : Bool :=
  if h.dedicated then true else false

/-- `Host.is_empty`: Python `True if self.vms else False`, i.e. the truthiness
of the VM list — `true` exactly on a non-empty list. -/
def Host.is_empty (h : Host) : Bool :=
  if h.vms.isEmpty then false else true

/-- First host with the given id (a Python reference resolved against the
fleet). -/
def findHost (hid : Nat) : List Host → Option Host
  | [] => none
  | h :: rest => if h.host_id == hid then some h else findHost hid rest

/-- Replace the first host carrying `h.host_id` (in-place mutation of the
object all aliases see). -/
def updateHost (h : Host) : List Host → List Host
  | [] => []
  | x :: rest => if x.host_id == h.host_id then h :: rest else x :: updateHost h rest

/-- Outcome of one `SegregationManager.migrate_vm` call.  `success rep`
models returning `True`; `rep` is `none` in dry-run mode and `some b` for an
executor verdict `b` in live mode.  The error constructors model the raised
exceptions (`MigrateVMWithAffinity`, `SameSourceAndDestinationHost`,
`NotEnoughResources`, `ValueError` out of `list.remove`); `lookupErr` is the
model's artifact for a host reference missing from the fleet. -/
inductive MigOutcome where
  | success (rep : Option Bool)
  | affinityErr
  | sameHostErr
  | notEnoughErr
  | valueErr
  | lookupErr
  deriving DecidableEq, Repr

/-- Result of `migrate_vm`: fleet after the call, outcome, and the log of
external-executor invocations (each with the host states passed to it). -/
structure MigResult where
  fleet : List Host
  outcome : MigOutcome
  execCalls : List (VM × Host × Host)
  deriving DecidableEq, Repr

/-- `SegregationManager.migrate_vm`.  Checks in source order: affinity,
same host, destination capacity; then mutate source and destination, and in
live mode call the executor (`self.ias_handler.migrate_vm`), whose verdict
only selects the log message — the state mutation stands and the method
returns `True` either way. -/
def migrate_vm (dry_run : Bool) (exec : VM → Host → Host → Bool)
    (vm : VM) (src_id dst_id : Nat) (fl : List Host) : MigResult :=
  if vm.has_affinity then ⟨fl, .affinityErr, []⟩
  else if src_id == dst_id then ⟨fl, .sameHostErr, []⟩
  else
    match findHost dst_id fl with
    | none => ⟨fl, .lookupErr, []⟩
    | some dst =>
      if dst.memory_free ≥ vm.memory_required then
        match findHost src_id fl with
        | none => ⟨fl, .lookupErr, []⟩
        | some src =>
          match src.remove_vm vm with
          | (src1, true) =>
            let dst1 := dst.append_vm vm
            let fl1 := updateHost dst1 (updateHost src1 fl)
            if dry_run then ⟨fl1, .success none, []⟩
            else ⟨fl1, .success (some (exec vm src1 dst1)), [(vm, src1, dst1)]⟩
          | (src1, false) => ⟨updateHost src1 fl, .valueErr, []⟩
      else ⟨fl, .notEnoughErr, []⟩

/-- Threshold set in `SegregationManager.__init__` (8 GiB in bytes). -/
def min_memory_per_host : Int := 8 * 1024 * 1024 * 1024

/-- Order of Python `sorted(key=attrgetter('memory_free'), reverse=True)`:
stable descending sort by free memory (Python `sorted` is stable; a stable
sort under a total preorder is unique, so the structural insertion sort
used below computes exactly it). -/
abbrev descMemFree : Host → Host → Prop := fun a b => b.memory_free ≤ a.memory_free

instance : IsTotal Host descMemFree := ⟨fun a b => Int.le_total b.memory_free a.memory_free⟩

instance : IsTrans Host descMemFree := ⟨fun _ _ _ h1 h2 => le_trans h2 h1⟩

/-- Order of Python `sorted(key=attrgetter('amount_of_vms'))`. -/
abbrev ascAmount : Host → Host → Prop := fun a b => a.amount_of_vms ≤ b.amount_of_vms

/-- Order of `sorted(key=methodcaller('amount_of_windows_vms'), reverse=True)`. -/
abbrev descWin : Host → Host → Prop := fun a b =>
  b.amount_of_windows_vms false ≤ a.amount_of_windows_vms false

/-- Order of `sorted(key=methodcaller('amount_of_windows_vms', True))`. -/
abbrev ascWinAff : Host → Host → Prop := fun a b =>
  a.amount_of_windows_vms true ≤ b.amount_of_windows_vms true

/-- Order of Python `sorted` on VMs (`VM.__lt__` orders by
`memory_required`). -/
abbrev ascMemReq : VM → VM → Prop := fun a b => a.memory_required ≤ b.memory_required

/-- Body of the inner loop of `SegregationManager.most_empty_stack` for the
pair `(i, n)`, acting on the state `(tmp_a, tmp_b)`: on the diagonal
(`n == i`, host-id equality) append `n` and resort by free memory
descending; otherwise append `n` only on a free-memory tie and resort by VM
count ascending.  Only the last assignment of `tmp_a` survives. -/
def mostEmptyInner (i : Host) (st : List Host × List Host) (n : Host) :
    List Host × List Host :=
  if n.host_id == i.host_id then
    let b := st.2 ++ [n]
    (b.insertionSort descMemFree, b)
  else
    let b := if n.memory_free == i.memory_free then st.2 ++ [n] else st.2
    (b.insertionSort ascAmount, b)

/-- Final loop of `most_empty_stack`: `for i in tmp_a: if i not in result:
result.append(i)` — keep the first occurrence of each host id. -/
def dedupHosts : List Host → List Host → List Host
  | [], result => result
  | i :: rest, result =>
    if result.any (fun r => r.host_id == i.host_id) then dedupHosts rest result
    else dedupHosts rest (result ++ [i])

/-- `SegregationManager.most_empty_stack`: the nested loop over all pairs of
hosts followed by first-occurrence deduplication. -/
def most_empty_stack (host_list : List Host) : List Host :=
  let p := host_list.foldl (fun st i => host_list.foldl (mostEmptyInner i) st) ([], [])
  dedupHosts p.1 []

/-- `SegregationManager.most_windows_stack`: keep non-dedicated hosts with at
least `min_memory_per_host` free; with `filter_full` sort those descending by
windows-VM count, otherwise sort the whole input list. -/
def most_windows_stack (host_list : List Host) (filter_full : Bool) : List Host :=
  let dq := (host_list.filter (fun h => !h.is_dedicated)).filter
      (fun h => decide (h.memory_free ≥ min_memory_per_host))
  if filter_full then dq.insertionSort descWin
  else host_list.insertionSort descWin

/-- `SegregationManager.least_windows_stack`: non-dedicated hosts owning at
least one non-affinity windows VM, ascending by that count. -/
def least_windows_stack (host_list : List Host) : List Host :=
  let dq := (host_list.filter (fun h => !h.is_dedicated)).filter
      (fun h => decide (0 < h.amount_of_windows_vms true))
  dq.insertionSort ascWinAff

/-- Exceptions escaping the strategy loops (the constructors mirror the
Python exception classes plus `IndexError` from indexing an empty ranking,
`ValueError` from `list.remove`, and the model's missing-reference case). -/
inductive PyErr where
  | affinity
  | sameHost
  | notEnough
  | valueError
  | indexError
  | lookupError
  deriving DecidableEq, Repr

/-- First inner loop of `segregate_cluster` (lines 524-539): walk the linux
VMs of the most-windows host, try each against `most_empty_host_lst[0]` and
stop after the first success; affinity, same-host and capacity errors are
caught and skipped.  `me0` is the destination index expression, evaluated at
each call — `none` models `IndexError` on an empty ranking. -/
def loopA (dry : Bool) (exec : VM → Host → Host → Bool) (src_id : Nat)
    (me0 : Option Nat) : List VM → List Host → Except PyErr (List Host)
  | [], fl => .ok fl
  | vm :: rest, fl =>
    match me0 with
    | none => .error .indexError
    | some d =>
      let r := migrate_vm dry exec vm src_id d fl
      match r.outcome with
      | .success _ => .ok r.fleet
      | .affinityErr => loopA dry exec src_id me0 rest r.fleet
      | .sameHostErr => loopA dry exec src_id me0 rest r.fleet
      | .notEnoughErr => loopA dry exec src_id me0 rest r.fleet
      | .valueErr => .error .valueError
      | .lookupErr => .error .lookupError

/-- Inner loop of the second half of `segregate_cluster` (lines 550-566):
try one windows VM against every host of the stale most-windows ranking.
Success and affinity break to the next VM; a same-host hit clears the
`iterate` flag and breaks; capacity misses continue.  Returns the fleet and
whether `iterate` was cleared. -/
def loopBInner (dry : Bool) (exec : VM → Host → Host → Bool) (vm : VM)
    (src_id : Nat) : List Nat → List Host → Except PyErr (List Host × Bool)
  | [], fl => .ok (fl, false)
  | d :: rest, fl =>
    let r := migrate_vm dry exec vm src_id d fl
    match r.outcome with
    | .success _ => .ok (r.fleet, false)
    | .affinityErr => .ok (r.fleet, false)
    | .sameHostErr => .ok (r.fleet, true)
    | .notEnoughErr => loopBInner dry exec vm src_id rest r.fleet
    | .valueErr => .error .valueError
    | .lookupErr => .error .lookupError

/-- Second loop of `segregate_cluster`: all windows VMs of the
least-windows head, each through `loopBInner`; the `iterate` flag stays
cleared once cleared. -/
def loopB (dry : Bool) (exec : VM → Host → Host → Bool) (src_id : Nat)
    (dsts : List Nat) : List VM → Bool → List Host → Except PyErr (List Host × Bool)
  | [], iter, fl => .ok (fl, iter)
  | vm :: rest, iter, fl =>
    match loopBInner dry exec vm src_id dsts fl with
    | .error e => .error e
    | .ok (fl1, cleared) => loopB dry exec src_id dsts rest (iter && !cleared) fl1

/-- One iteration of the `while iterate` body of
`SegregationManager.segregate_cluster`.  Both halves index `[0]` into their
ranking without an emptiness check; an empty ranking is an `IndexError`.
Returns the fleet and the `iterate` flag after the body. -/
def segregate_cluster_iter (dry : Bool) (exec : VM → Host → Host → Bool)
    (fl : List Host) : Except PyErr (List Host × Bool) :=
  let mw := most_windows_stack fl true
  let me := most_empty_stack fl
  match mw with
  | [] => .error .indexError
  | mw0 :: _ =>
    let linuxVms := mw0.vms.filter (fun vm => !vm.is_windows)
    match loopA dry exec mw0.host_id ((me.head?).map Host.host_id) linuxVms fl with
    | .error e => .error e
    | .ok fl1 =>
      match least_windows_stack fl1 with
      | [] => .error .indexError
      | lw0 :: _ =>
        let winVms := (lw0.vms.filter VM.is_windows).insertionSort ascMemReq
        loopB dry exec lw0.host_id (mw.map Host.host_id) winVms true fl1

/-- Inner loop of `prepare_emptiest_host`: try the VM against the 2nd, 3rd,
… emptiest hosts; only `NotEnoughResources` is caught, any other exception
propagates. -/
def prepInner (dry : Bool) (exec : VM → Host → Host → Bool) (vm : VM)
    (src_id : Nat) : List Nat → List Host → Except PyErr (List Host)
  | [], fl => .ok fl
  | d :: rest, fl =>
    let r := migrate_vm dry exec vm src_id d fl
    match r.outcome with
    | .success _ => .ok r.fleet
    | .notEnoughErr => prepInner dry exec vm src_id rest r.fleet
    | .affinityErr => .error .affinity
    | .sameHostErr => .error .sameHost
    | .valueErr => .error .valueError
    | .lookupErr => .error .lookupError

/-- Outer loop of `prepare_emptiest_host` over the sorted linux VMs of the
emptiest host. -/
def prepOuter (dry : Bool) (exec : VM → Host → Host → Bool) (src_id : Nat)
    (dsts : List Nat) : List VM → List Host → Except PyErr (List Host)
  | [], fl => .ok fl
  | vm :: rest, fl =>
    match prepInner dry exec vm src_id dsts fl with
    | .error e => .error e
    | .ok fl1 => prepOuter dry exec src_id dsts rest fl1

/-- `SegregationManager.prepare_emptiest_host` on the list of host
references `hl` (ids) resolved against the fleet `fl`: drain the linux VMs
of the emptiest host into the remaining hosts in emptiness order. -/
def prepare_emptiest_host (dry : Bool) (exec : VM → Host → Host → Bool)
    (hl : List Nat) (fl : List Host) : Except PyErr (List Host) :=
  let hosts := hl.filterMap (fun i => findHost i fl)
  match most_empty_stack hosts with
  | [] => .error .indexError
  | h0 :: rest =>
    let vms := (h0.vms.filter (fun x => !x.is_windows)).insertionSort ascMemReq
    prepOuter dry exec h0.host_id (rest.map Host.host_id) vms fl

/-- Result of the VM loop inside `magic`: either the enclosing call
executed `return`, or the loop finished and the walk continues with the
current fleet and (possibly shrunk) host-list copy. -/
inductive MagicLoopRes where
  | ret (fl : List Host)
  | cont (fl : List Host) (hl : List Nat)
  deriving Repr

/-- VM loop of `magic` (lines 484-499) for one source host.  `rec` is the
recursive `self.magic` call; `none` throughout models fuel exhaustion only.
Successful and affinity-blocked migrations continue; `NotEnoughResources`
removes the emptiest host from the copy `hl` and recurses (a failing
`list.remove` — host already removed — executes `return`); same-host and
`ValueError` exceptions propagate uncaught. -/
def vmLoopM (rec : List Nat → List Host → Option (Except PyErr (List Host)))
    (dry : Bool) (exec : VM → Host → Host → Bool) (emptiest_id src_id : Nat) :
    List VM → List Nat → List Host → Option (Except PyErr MagicLoopRes)
  | [], hl, fl => some (.ok (.cont fl hl))
  | vm :: rest, hl, fl =>
    let r := migrate_vm dry exec vm src_id emptiest_id fl
    match r.outcome with
    | .success _ => vmLoopM rec dry exec emptiest_id src_id rest hl r.fleet
    | .affinityErr => vmLoopM rec dry exec emptiest_id src_id rest hl r.fleet
    | .sameHostErr => some (.error .sameHost)
    | .valueErr => some (.error .valueError)
    | .lookupErr => some (.error .lookupError)
    | .notEnoughErr =>
      if hl.contains emptiest_id then
        let hl1 := hl.erase emptiest_id
        match rec hl1 r.fleet with
        | none => none
        | some (.error e) => some (.error e)
        | some (.ok fl2) => vmLoopM rec dry exec emptiest_id src_id rest hl1 fl2
      else some (.ok (.ret r.fleet))

/-- Source-host loop of `magic` over `least_windows_stack(remaining_hosts)`;
each source contributes its windows VMs sorted by required memory. -/
def fillLoop (rec : List Nat → List Host → Option (Except PyErr (List Host)))
    (dry : Bool) (exec : VM → Host → Host → Bool) (emptiest_id : Nat) :
    List Nat → List Nat → List Host → Option (Except PyErr (List Host))
  | [], _, fl => some (.ok fl)
  | s :: rest, hl, fl =>
    let vms := match findHost s fl with
      | some src => (src.vms.filter VM.is_windows).insertionSort ascMemReq
      | none => []
    match vmLoopM rec dry exec emptiest_id s vms hl fl with
    | none => none
    | some (.error e) => some (.error e)
    | some (.ok (.ret fl1)) => some (.ok fl1)
    | some (.ok (.cont fl1 hl1)) => fillLoop rec dry exec emptiest_id rest hl1 fl1

/-- `SegregationManager.magic`, fuelled: `none` is returned only when the
fuel runs out before the recursion bottoms out.  `hl` is the list of host
references (`hl_cp`, a shallow copy, so the host objects live in the shared
fleet `fl`). -/
def magicF (dry : Bool) (exec : VM → Host → Host → Bool) :
    Nat → List Nat → List Host → Option (Except PyErr (List Host))
  | 0, _, _ => none
  | fuel + 1, hl, fl =>
    match prepare_emptiest_host dry exec hl fl with
    | .error e => some (.error e)
    | .ok fl1 =>
      let hosts := hl.filterMap (fun i => findHost i fl1)
      match most_empty_stack hosts with
      | [] => some (.error .indexError)
      | emptiest :: rest =>
        fillLoop (magicF dry exec fuel) dry exec emptiest.host_id
          ((least_windows_stack rest).map Host.host_id) hl fl1

end Seg

namespace Seg2

/-- Virtual machine of the simplified variant (`SegregationAlgorithm2.py`):
an id and an `os_type` string. -/
structure VM where
  vm_id : Nat
  os_type : List Char
  deriving DecidableEq, Repr

/-- Module constant `WIN = 'WindowsVM'`. -/
def WIN : List Char := [ 'W', 'i', 'n', 'd', 'o', 'w', 's', 'V', 'M' ]

/-- Module constant `UNIX = 'LinuxVM'`. -/
def UNIX : List Char := [ 'L', 'i', 'n', 'u', 'x', 'V', 'M' ]

/-- `VM.capacity_required` property: always 1. -/
def VM.capacity_required (_ : VM) : Int := 1

/-- Host of the simplified variant; `capacity_total` is set to 10 in
`__init__`. -/
structure Host where
  host_id : Nat
  vms : List VM
  capacity_total : Int
  deriving DecidableEq, Repr

/-- `Host.capacity_available` property. -/
def Host.capacity_available (h : Host) : Int :=
  h.capacity_total - h.vms.length

/-- `Host.amount_of_windows_vms` property. -/
def Host.amount_of_windows_vms (h : Host) : Nat :=
  h.vms.countP (fun vm => vm.os_type == WIN)

/-- `is_windows` filter function. -/
def is_windows (vm : VM) : Bool :=
  if vm.os_type == WIN then true else false

/-- `is_linux` filter function. -/
def is_linux (vm : VM) : Bool :=
  if vm.os_type == UNIX then true else false

/-- Order of `sorted(host_list, reverse=True)` under `Host.__lt__`
(which orders by `capacity_available`): stable descending sort. -/
abbrev descCap : Host → Host → Prop := fun a b => b.capacity_available ≤ a.capacity_available

instance : IsTotal Host descCap := ⟨fun a b => Int.le_total b.capacity_available a.capacity_available⟩

instance : IsTrans Host descCap := ⟨fun _ _ _ h1 h2 => le_trans h2 h1⟩

/-- `most_empty_stack` of the simplified variant. -/
def most_empty_stack (host_list : List Host) : List Host :=
  host_list.insertionSort descCap

/-- Python `list.remove` on VMs keyed on identity (`vm_id`). -/
def removeVmById (vid : Nat) : List VM → Option (List VM)
  | [] => none
  | v :: rest =>
    if v.vm_id == vid then some rest
    else (removeVmById vid rest).map (fun l => v :: l)

/-- First host with the given id. -/
def findHost (hid : Nat) : List Host → Option Host
  | [] => none
  | h :: rest => if h.host_id == hid then some h else findHost hid rest

/-- Replace the first host carrying `h.host_id`. -/
def updateHost (h : Host) : List Host → List Host
  | [] => []
  | x :: rest => if x.host_id == h.host_id then h :: rest else x :: updateHost h rest

/-- Outcome of a simplified `migrate_vm` call (`SameSourceAndDestinationHost`,
`DestinationHostFull`, `ValueError`, missing reference). -/
inductive MigOutcome where
  | success
  | sameHostErr
  | destFullErr
  | valueErr
  | lookupErr
  deriving DecidableEq, Repr

/-- `migrate_vm` of the simplified variant: same-host check first, then the
capacity check; on success move the VM from source to destination. -/
def migrate_vm (vm : VM) (src_id dst_id : Nat) (fl : List Host) :
    List Host × MigOutcome :=
  if src_id == dst_id then (fl, .sameHostErr)
  else
    match findHost dst_id fl with
    | none => (fl, .lookupErr)
    | some dst =>
      if dst.capacity_available ≥ vm.capacity_required then
        match findHost src_id fl with
        | none => (fl, .lookupErr)
        | some src =>
          match removeVmById vm.vm_id src.vms with
          | some l =>
            let src1 : Host := { src with vms := l }
            let dst1 : Host := { dst with vms := dst.vms ++ [vm] }
            (updateHost dst1 (updateHost src1 fl), .success)
          | none => (fl, .valueErr)
      else (fl, .destFullErr)

end Seg2

namespace Seg

/-- Occurrences of the VM id inside one host's collection. -/
def vmCountIn (vid : Nat) (h : Host) : Nat :=
  (h.vms.filter (fun v => v.vm_id == vid)).length

/-- Occurrences of the VM id across the whole fleet. -/
def vmCount (vid : Nat) (fl : List Host) : Nat :=
  (fl.map (vmCountIn vid)).sum

/-- Occurrences of the VM id inside the host addressed by `hid` (0 when the
host is absent). -/
def countOfIn (vid hid : Nat) (fl : List Host) : Nat :=
  match findHost hid fl with
  | some h => vmCountIn vid h
  | none => 0

/-- The bookkeeping invariant of claim C3: `memory_allocated` equals the sum
of `memory_required` over the owned VMs. -/
def memInv (h : Host) : Prop :=
  h.memory_allocated = (h.vms.map VM.memory_required).sum

instance (h : Host) : Decidable (memInv h) :=
  inferInstanceAs (Decidable (h.memory_allocated = (h.vms.map VM.memory_required).sum))

/-- Closed form of the `tmp_b` accumulator of `most_empty_stack` after the
full pair loop: for each `i`, all hosts agreeing with `i` by id or by free
memory, in input order. -/
def tmpB (l : List Host) : List Host :=
  l.flatMap (fun i =>
    l.filter (fun n => n.host_id == i.host_id || n.memory_free == i.memory_free))

/-- The source host as left by the successful path of `migrate_vm`: memory
decremented and the VM list with the migrated VM removed. -/
def srcAfter (vm : VM) (src : Host) (l' : List VM) : Host :=
  { src with memory_allocated := src.memory_allocated - vm.memory_required,
             vms := l' }

/-- Executor stub that always reports success. -/
def execTrue : VM → Host → Host → Bool := fun _ _ _ => true

/-- Executor stub that always reports failure (the rollback scenario of the
spec). -/
def execFalse : VM → Host → Host → Bool := fun _ _ _ => false

end Seg

namespace Ex

open Seg

/-- A linux VM requiring 4 memory units. -/
def exLinux : VM := ⟨10, [ 'c', 'e', 'n', 't', 'o', 's' ], 4, none⟩

/-- A second linux VM requiring 2 memory units. -/
def exLinux2 : VM := ⟨11, [ 'u', 'b', 'u', 'n', 't', 'u' ], 2, none⟩

/-- A windows VM requiring 4 memory units. -/
def exWin : VM := ⟨12, [ 'w', 'i', 'n', '2', 'k' ], 4, none⟩

/-- A linux VM carrying the affinity group `"G1"`. -/
def exAff : VM := ⟨20, [ 'c', 'e', 'n', 't', 'o', 's' ], 4, some [ 'G', '1' ]⟩

/-- Source host owning `exLinux`. -/
def exSrc : Host := ⟨1, [exLinux], 100, 0, 4, false⟩

/-- Empty non-dedicated destination host. -/
def exDst : Host := ⟨2, [], 100, 0, 0, false⟩

/-- Empty dedicated destination host. -/
def exDstDed : Host := ⟨3, [], 100, 0, 0, true⟩

/-- Source host owning the affinity VM `exAff`. -/
def exSrcAff : Host := ⟨1, [exAff], 100, 0, 4, false⟩

/-- Two-host fleet for the success scenarios. -/
def exFleet : List Host := [exSrc, exDst]

/-- Fleet whose source VM has an affinity group; the destination hosts no
VM of that group. -/
def exFleetAff : List Host := [exSrcAff, exDst]

/-- Fleet whose destination is dedicated. -/
def exFleetDed : List Host := [exSrc, exDstDed]

/-- Host with 2 VMs tying on free memory with `exTieB`. -/
def exTieA : Host := ⟨1, [exLinux, exLinux2], 100, 0, 0, false⟩

/-- Host with 1 VM, same free memory as `exTieA`. -/
def exTieB : Host := ⟨2, [exWin], 100, 0, 0, false⟩

/-- Host below the 8 GiB free-memory threshold, so the most-windows ranking
of `[exPoor]` is empty. -/
def exPoor : Host := ⟨7, [exLinux], 0, 0, 0, false⟩

end Ex

open Seg Ex

/-- C10: `Host.is_empty` returns `True` exactly when the host owns at least
one VM — the truthiness of the Python list, the inverse of what the method
name and docstring suggest. -/
theorem is_empty_true_iff_owns_vms (h : Host) : h.is_empty = true ↔ h.vms ≠ [] := by
  cases hv : h.vms <;> simp [Host.is_empty, hv]

/-- C1 counterexample: a VM whose affinity group `"G1"` is absent from the
destination (the destination owns no VM at all) is still rejected —
`migrate_vm` raises `MigrateVMWithAffinity` on `vm.has_affinity` alone, so
the claim's "passes the affinity check" is false here. -/
theorem migrate_vm_affinity_cex :
    exAff.has_affinity = true ∧
    (findHost 2 exFleetAff).map Host.vms = some [] ∧
    (migrate_vm false execTrue exAff 1 2 exFleetAff).outcome = MigOutcome.affinityErr ∧
    (migrate_vm false execTrue exAff 1 2 exFleetAff).fleet = exFleetAff := by
  decide

/-- C1 amended: `migrate_vm` fails with the affinity error if and only if
the VM has an affinity group set — irrespective of the destination host's
VMs and their affinity groups — and on that failure the fleet is unchanged
and the executor is not invoked. -/
theorem migrate_vm_affinity_iff
    (dry : Bool) (exec : VM → Host → Host → Bool) (vm : VM) (s d : Nat)
    (fl : List Host) :
    ((migrate_vm dry exec vm s d fl).outcome = MigOutcome.affinityErr ↔
      vm.has_affinity = true) ∧
    (vm.has_affinity = true →
      (migrate_vm dry exec vm s d fl).fleet = fl ∧
      (migrate_vm dry exec vm s d fl).execCalls = []) := by
  by_cases h : vm.has_affinity = true
  · simp [migrate_vm, h]
  · have h' : vm.has_affinity = false := by simpa using h
    refine ⟨?_, by simp [h']⟩
    simp only [h', iff_false, Bool.false_eq_true]
    unfold migrate_vm
    rw [h']
    simp only [Bool.false_eq_true, if_false]
    split
    · simp
    · split
      · simp
      · split
        · split
          · simp
          · split
            · split <;> simp
            · simp
        · simp

/-- C1 witness: the amended equivalence evaluated at the concrete affinity
scenario. -/
theorem migrate_vm_affinity_iff_witness :
    ((migrate_vm false execTrue exAff 1 2 exFleetAff).outcome = MigOutcome.affinityErr ↔
      exAff.has_affinity = true) ∧
    (exAff.has_affinity = true →
      (migrate_vm false execTrue exAff 1 2 exFleetAff).fleet = exFleetAff ∧
      (migrate_vm false execTrue exAff 1 2 exFleetAff).execCalls = []) :=
  migrate_vm_affinity_iff false execTrue exAff 1 2 exFleetAff

/-- C7 counterexample: with source equal to destination but a VM that has an
affinity group, `migrate_vm` raises the affinity error, not the same-host
error — the affinity check precedes the same-host check. -/
theorem migrate_vm_same_host_cex :
    (migrate_vm false execTrue exAff 1 1 exFleetAff).outcome = MigOutcome.affinityErr ∧
    (migrate_vm false execTrue exAff 1 1 exFleetAff).outcome ≠ MigOutcome.sameHostErr := by
  decide

/-- C7 amended: with equal source and destination, `migrate_vm` never
mutates the fleet and never invokes the executor, and fails with the
same-host error exactly when the VM has no affinity group (otherwise the
affinity error fires first); the simplified variant's `migrate_vm` always
fails with the same-host error and leaves the fleet unchanged. -/
theorem migrate_vm_same_host_amended :
    (∀ (dry : Bool) (exec : VM → Host → Host → Bool) (vm : VM) (hid : Nat)
       (fl : List Host),
       (migrate_vm dry exec vm hid hid fl).fleet = fl ∧
       (migrate_vm dry exec vm hid hid fl).execCalls = [] ∧
       (migrate_vm dry exec vm hid hid fl).outcome =
         (if vm.has_affinity then MigOutcome.affinityErr else MigOutcome.sameHostErr)) ∧
    (∀ (vm2 : Seg2.VM) (hid : Nat) (fl2 : List Seg2.Host),
       Seg2.migrate_vm vm2 hid hid fl2 = (fl2, Seg2.MigOutcome.sameHostErr)) := by
  constructor
  · intro dry exec vm hid fl
    by_cases h : vm.has_affinity = true <;> simp [migrate_vm, h]
  · intro vm2 hid fl2
    simp [Seg2.migrate_vm]

/-- C8 counterexample: a fleet whose single host is below the free-memory
threshold makes `most_windows_stack` empty, and the `segregate_cluster`
body indexes `[0]` into it without a guard — an `IndexError`, not a
"no eligible host" outcome. -/
theorem segregate_cluster_guard_cex :
    most_windows_stack [exPoor] true = [] ∧
    segregate_cluster_iter false execTrue [exPoor] = Except.error PyErr.indexError :=
  ⟨by decide, rfl⟩

/-- C8 amended: the strategies perform no emptiness check before indexing;
whenever the most-windows ranking of the fleet is empty, the
`segregate_cluster` loop body terminates in an index error. -/
theorem segregate_cluster_empty_ranking_index_error
    (dry : Bool) (exec : VM → Host → Host → Bool) (fl : List Host)
    (h : most_windows_stack fl true = []) :
    segregate_cluster_iter dry exec fl = Except.error PyErr.indexError := by
  simp [segregate_cluster_iter, h]

/-- C8 witness: the amended statement applied to the concrete
below-threshold fleet. -/
theorem segregate_cluster_empty_ranking_index_error_witness :
    segregate_cluster_iter true execTrue [exPoor] = Except.error PyErr.indexError :=
  segregate_cluster_empty_ranking_index_error true execTrue [exPoor] (by decide)

lemma findHost_some_id {hid : Nat} {fl : List Host} {h : Host}
    (hf : findHost hid fl = some h) : h.host_id = hid := by
  induction fl with
  | nil => simp [findHost] at hf
  | cons x rest ih =>
    by_cases hx : (x.host_id == hid) = true
    · simp [findHost, hx] at hf
      subst hf
      exact beq_iff_eq.mp hx
    · simp [findHost, hx] at hf
      exact ih hf

lemma findHost_mem {hid : Nat} {fl : List Host} {h : Host}
    (hf : findHost hid fl = some h) : h ∈ fl := by
  induction fl with
  | nil => simp [findHost] at hf
  | cons x rest ih =>
    by_cases hx : (x.host_id == hid) = true
    · simp [findHost, hx] at hf
      simp [hf]
    · simp [findHost, hx] at hf
      exact List.mem_cons_of_mem x (ih hf)

lemma findHost_updateHost_ne {h : Host} {hid : Nat} (hne : hid ≠ h.host_id)
    (fl : List Host) : findHost hid (updateHost h fl) = findHost hid fl := by
  induction fl with
  | nil => rfl
  | cons x rest ih =>
    by_cases hx : (x.host_id == h.host_id) = true
    · have hxid : x.host_id = h.host_id := beq_iff_eq.mp hx
      have h1 : (h.host_id == hid) = false := beq_false_of_ne (fun e => hne e.symm)
      have h2 : (x.host_id == hid) = false := by
        rw [hxid]; exact h1
      simp [updateHost, hx, findHost, h1, h2]
    · by_cases hx2 : (x.host_id == hid) = true
      · simp [updateHost, hx, findHost, hx2]
      · simp [updateHost, hx, findHost, hx2, ih]

lemma findHost_updateHost_self {h : Host} {fl : List Host}
    (hsome : (findHost h.host_id fl).isSome) :
    findHost h.host_id (updateHost h fl) = some h := by
  induction fl with
  | nil => simp [findHost] at hsome
  | cons x rest ih =>
    by_cases hx : (x.host_id == h.host_id) = true
    · simp [updateHost, hx, findHost]
    · have hsome' : (findHost h.host_id rest).isSome := by
        simpa [findHost, hx] using hsome
      simp [updateHost, hx, findHost, ih hsome']

lemma mem_updateHost {x h : Host} {fl : List Host}
    (hx : x ∈ updateHost h fl) : x = h ∨ x ∈ fl := by
  induction fl with
  | nil => simp [updateHost] at hx
  | cons y rest ih =>
    by_cases hy : (y.host_id == h.host_id) = true
    · simp [updateHost, hy] at hx
      rcases hx with hx | hx
      · exact Or.inl hx
      · exact Or.inr (List.mem_cons_of_mem y hx)
    · simp [updateHost, hy] at hx
      rcases hx with hx | hx
      · exact Or.inr (by simp [hx])
      · rcases ih hx with h1 | h1
        · exact Or.inl h1
        · exact Or.inr (List.mem_cons_of_mem y h1)

/-- The successful path of `migrate_vm` in closed form. -/
lemma migrate_vm_success_eq (dry : Bool) (exec : VM → Host → Host → Bool)
    {vm : VM} {s d : Nat} {fl : List Host} {src dst : Host} {l' : List VM}
    (ha : vm.has_affinity = false) (hsd : s ≠ d)
    (hd : findHost d fl = some dst) (hcap : dst.memory_free ≥ vm.memory_required)
    (hs : findHost s fl = some src)
    (hrm : removeVmById vm.vm_id src.vms = some l') :
    migrate_vm dry exec vm s d fl =
      (if dry then
        ⟨updateHost (dst.append_vm vm) (updateHost (srcAfter vm src l') fl),
         .success none, []⟩
      else
        ⟨updateHost (dst.append_vm vm) (updateHost (srcAfter vm src l') fl),
         .success (some (exec vm (srcAfter vm src l') (dst.append_vm vm))),
         [(vm, srcAfter vm src l', dst.append_vm vm)]⟩) := by
  simp [migrate_vm, ha, beq_false_of_ne hsd, hd, hcap, hs, Host.remove_vm, hrm, srcAfter]

/-- After a successful migration the fleet is the double in-place update. -/
lemma migrate_vm_success_fleet (dry : Bool) (exec : VM → Host → Host → Bool)
    {vm : VM} {s d : Nat} {fl : List Host} {src dst : Host} {l' : List VM}
    (ha : vm.has_affinity = false) (hsd : s ≠ d)
    (hd : findHost d fl = some dst) (hcap : dst.memory_free ≥ vm.memory_required)
    (hs : findHost s fl = some src)
    (hrm : removeVmById vm.vm_id src.vms = some l') :
    (migrate_vm dry exec vm s d fl).fleet =
      updateHost (dst.append_vm vm) (updateHost (srcAfter vm src l') fl) := by
  rw [migrate_vm_success_eq dry exec ha hsd hd hcap hs hrm]
  cases dry <;> rfl

/-- After a successful migration, looking up the source id yields the
mutated source host. -/
lemma migrate_vm_success_findHost_src (dry : Bool) (exec : VM → Host → Host → Bool)
    {vm : VM} {s d : Nat} {fl : List Host} {src dst : Host} {l' : List VM}
    (ha : vm.has_affinity = false) (hsd : s ≠ d)
    (hd : findHost d fl = some dst) (hcap : dst.memory_free ≥ vm.memory_required)
    (hs : findHost s fl = some src)
    (hrm : removeVmById vm.vm_id src.vms = some l') :
    findHost s (migrate_vm dry exec vm s d fl).fleet = some (srcAfter vm src l') := by
  have hsid : src.host_id = s := findHost_some_id hs
  have hdid : dst.host_id = d := findHost_some_id hd
  have hsrcid : (srcAfter vm src l').host_id = s := hsid
  have hdstid : (dst.append_vm vm).host_id = d := hdid
  rw [migrate_vm_success_fleet dry exec ha hsd hd hcap hs hrm]
  have hne : s ≠ (dst.append_vm vm).host_id := by rw [hdstid]; exact hsd
  rw [findHost_updateHost_ne hne]
  have hsome : (findHost (srcAfter vm src l').host_id fl).isSome := by
    rw [hsrcid, hs]; rfl
  have hfind := findHost_updateHost_self (h := srcAfter vm src l') hsome
  rw [hsrcid] at hfind
  exact hfind

/-- After a successful migration, looking up the destination id yields the
mutated destination host. -/
lemma migrate_vm_success_findHost_dst (dry : Bool) (exec : VM → Host → Host → Bool)
    {vm : VM} {s d : Nat} {fl : List Host} {src dst : Host} {l' : List VM}
    (ha : vm.has_affinity = false) (hsd : s ≠ d)
    (hd : findHost d fl = some dst) (hcap : dst.memory_free ≥ vm.memory_required)
    (hs : findHost s fl = some src)
    (hrm : removeVmById vm.vm_id src.vms = some l') :
    findHost d (migrate_vm dry exec vm s d fl).fleet = some (dst.append_vm vm) := by
  have hsid : src.host_id = s := findHost_some_id hs
  have hdid : dst.host_id = d := findHost_some_id hd
  have hsrcid : (srcAfter vm src l').host_id = s := hsid
  have hdstid : (dst.append_vm vm).host_id = d := hdid
  rw [migrate_vm_success_fleet dry exec ha hsd hd hcap hs hrm]
  have hne : d ≠ (srcAfter vm src l').host_id := by
    rw [hsrcid]; exact fun e => hsd e.symm
  have hsome : (findHost (dst.append_vm vm).host_id
      (updateHost (srcAfter vm src l') fl)).isSome := by
    rw [hdstid, findHost_updateHost_ne hne, hd]; rfl
  have hfind := findHost_updateHost_self (h := dst.append_vm vm) hsome
  rw [hdstid] at hfind
  exact hfind

/-- After a successful migration the source lost exactly the migrated VM
and the destination gained it at the end of its collection. -/
lemma migrate_vm_success_fleet_lookup (dry : Bool) (exec : VM → Host → Host → Bool)
    {vm : VM} {s d : Nat} {fl : List Host} {src dst : Host} {l' : List VM}
    (ha : vm.has_affinity = false) (hsd : s ≠ d)
    (hd : findHost d fl = some dst) (hcap : dst.memory_free ≥ vm.memory_required)
    (hs : findHost s fl = some src)
    (hrm : removeVmById vm.vm_id src.vms = some l') :
    (findHost s (migrate_vm dry exec vm s d fl).fleet).map Host.vms = some l' ∧
    (findHost d (migrate_vm dry exec vm s d fl).fleet).map Host.vms =
      some (dst.vms ++ [vm]) := by
  rw [migrate_vm_success_findHost_src dry exec ha hsd hd hcap hs hrm,
      migrate_vm_success_findHost_dst dry exec ha hsd hd hcap hs hrm]
  exact ⟨rfl, rfl⟩

/-- C4 counterexample: in live mode with an executor that reports failure,
`migrate_vm` keeps the mutation (the VM stays moved to the destination) and
still reports `True`; the fleet does not return to its pre-call value, so
the claimed rollback does not exist. -/
theorem migrate_vm_rollback_cex :
    (migrate_vm false execFalse exLinux 1 2 exFleet).outcome = MigOutcome.success (some false) ∧
    (migrate_vm false execFalse exLinux 1 2 exFleet).fleet ≠ exFleet ∧
    (findHost 1 (migrate_vm false execFalse exLinux 1 2 exFleet).fleet).map Host.vms = some [] ∧
    (findHost 2 (migrate_vm false execFalse exLinux 1 2 exFleet).fleet).map Host.vms = some [exLinux] := by
  decide

/-- C4 amended: in live mode, when the executor reports failure the code
only logs an error: the state mutation is not rolled back (the source
keeps the VM removed, the destination keeps it appended) and the call still
returns `True` (modelled as `success (some false)`).  With an executor
stubbed to always fail, the post-call state therefore differs from the
pre-call state whenever the mutation happened. -/
theorem migrate_vm_no_rollback
    (exec : VM → Host → Host → Bool) (vm : VM) (s d : Nat) (fl : List Host)
    (src dst : Host) (l' : List VM)
    (hfail : ∀ a b c, exec a b c = false)
    (ha : vm.has_affinity = false) (hsd : s ≠ d)
    (hd : findHost d fl = some dst) (hcap : dst.memory_free ≥ vm.memory_required)
    (hs : findHost s fl = some src)
    (hrm : removeVmById vm.vm_id src.vms = some l') :
    (migrate_vm false exec vm s d fl).outcome = MigOutcome.success (some false) ∧
    (findHost s (migrate_vm false exec vm s d fl).fleet).map Host.vms = some l' ∧
    (findHost d (migrate_vm false exec vm s d fl).fleet).map Host.vms =
      some (dst.vms ++ [vm]) := by
  refine ⟨?_, migrate_vm_success_fleet_lookup false exec ha hsd hd hcap hs hrm⟩
  rw [migrate_vm_success_eq false exec ha hsd hd hcap hs hrm]
  simp [hfail]

/-- C4 witness: the no-rollback conclusion at the concrete two-host fleet
with the always-failing executor. -/
theorem migrate_vm_no_rollback_witness :
    (migrate_vm false execFalse exLinux 1 2 exFleet).outcome = MigOutcome.success (some false) ∧
    (findHost 1 (migrate_vm false execFalse exLinux 1 2 exFleet).fleet).map Host.vms = some [] ∧
    (findHost 2 (migrate_vm false execFalse exLinux 1 2 exFleet).fleet).map Host.vms =
      some (exDst.vms ++ [exLinux]) :=
  migrate_vm_no_rollback execFalse exLinux 1 2 exFleet exSrc exDst []
    (fun _ _ _ => rfl) (by decide) (by decide) (by decide) (by decide) (by decide) (by decide)

/-- C5 counterexample: a dedicated destination with enough free memory
receives the migrated VM — `migrate_vm` has no dedicated-destination check
and no such error exists in the code. -/
theorem migrate_vm_dedicated_cex :
    exDstDed.dedicated = true ∧
    (migrate_vm false execTrue exLinux 1 3 exFleetDed).outcome = MigOutcome.success (some true) ∧
    (findHost 3 (migrate_vm false execTrue exLinux 1 3 exFleetDed).fleet).map Host.vms =
      some [exLinux] := by
  decide

/-- C5 amended: `migrate_vm` never inspects the `dedicated` flag: a
dedicated destination host with sufficient free memory accepts the VM like
any other host, so dedicated hosts can gain VMs during runs. -/
theorem migrate_vm_no_dedicated_check
    (dry : Bool) (exec : VM → Host → Host → Bool) (vm : VM) (s d : Nat)
    (fl : List Host) (src dst : Host) (l' : List VM)
    (hded : dst.dedicated = true)
    (ha : vm.has_affinity = false) (hsd : s ≠ d)
    (hd : findHost d fl = some dst) (hcap : dst.memory_free ≥ vm.memory_required)
    (hs : findHost s fl = some src)
    (hrm : removeVmById vm.vm_id src.vms = some l') :
    (∃ rep, (migrate_vm dry exec vm s d fl).outcome = MigOutcome.success rep) ∧
    (findHost d (migrate_vm dry exec vm s d fl).fleet).map Host.vms =
      some (dst.vms ++ [vm]) := by
  refine ⟨?_, (migrate_vm_success_fleet_lookup dry exec ha hsd hd hcap hs hrm).2⟩
  rw [migrate_vm_success_eq dry exec ha hsd hd hcap hs hrm]
  cases dry <;> exact ⟨_, rfl⟩

/-- C5 witness: the dedicated host `exDstDed` receives `exLinux`. -/
theorem migrate_vm_no_dedicated_check_witness :
    (∃ rep, (migrate_vm false execTrue exLinux 1 3 exFleetDed).outcome = MigOutcome.success rep) ∧
    (findHost 3 (migrate_vm false execTrue exLinux 1 3 exFleetDed).fleet).map Host.vms =
      some (exDstDed.vms ++ [exLinux]) :=
  migrate_vm_no_dedicated_check false execTrue exLinux 1 3 exFleetDed exSrc exDstDed []
    (by decide) (by decide) (by decide) (by decide) (by decide) (by decide) (by decide)



lemma removeVmById_count {vid0 : Nat} :
    ∀ {l l' : List VM}, removeVmById vid0 l = some l' →
    ∀ vid : Nat,
      (l'.filter (fun v => v.vm_id == vid)).length + (if vid0 = vid then 1 else 0) =
        (l.filter (fun v => v.vm_id == vid)).length := by
  intro l
  induction l with
  | nil => intro l' hrm; simp [removeVmById] at hrm
  | cons v rest ih =>
    intro l' hrm vid
    by_cases hv : (v.vm_id == vid0) = true
    · have hveq : v.vm_id = vid0 := beq_iff_eq.mp hv
      have hl' : l' = rest := by
        simp [removeVmById, hv] at hrm
        exact hrm.symm
      subst hl'
      by_cases hvid : vid0 = vid
      · have hv2 : (v.vm_id == vid) = true := by
          rw [hveq, hvid]
          exact beq_self_eq_true vid
        simp [List.filter_cons, hv2, hvid]
      · have hv2 : (v.vm_id == vid) = false := by
          refine beq_false_of_ne ?_
          rw [hveq]
          exact hvid
        simp [List.filter_cons, hv2, hvid]
    · have hv' : (v.vm_id == vid0) = false := by
        cases h2 : (v.vm_id == vid0) with
        | false => rfl
        | true => exact absurd h2 hv
      rw [removeVmById] at hrm
      rw [hv'] at hrm
      simp only [Bool.false_eq_true, if_false] at hrm
      cases hrm2 : removeVmById vid0 rest with
      | none => rw [hrm2] at hrm; simp at hrm
      | some l2 =>
        rw [hrm2] at hrm
        have hl' : l' = v :: l2 := (Option.some_inj.mp hrm).symm
        subst hl'
        have := ih hrm2 vid
        by_cases hv2 : (v.vm_id == vid) = true
        · simp [List.filter_cons, hv2]
          omega
        · have hv2' : (v.vm_id == vid) = false := by
            cases h2 : (v.vm_id == vid) with
            | false => rfl
            | true => exact absurd h2 hv2
          simp [List.filter_cons, hv2']
          omega

lemma removeVmById_sum {vm : VM} :
    ∀ {l l' : List VM}, removeVmById vm.vm_id l = some l' →
    (∀ w ∈ l, w.vm_id = vm.vm_id → w = vm) →
    (l'.map VM.memory_required).sum + vm.memory_required =
      (l.map VM.memory_required).sum := by
  intro l
  induction l with
  | nil => intro l' hrm; simp [removeVmById] at hrm
  | cons v rest ih =>
    intro l' hrm hid
    by_cases hv : (v.vm_id == vm.vm_id) = true
    · have hveq : v = vm := hid v (by simp) (beq_iff_eq.mp hv)
      have hl' : l' = rest := by
        simp [removeVmById, hv] at hrm
        exact hrm.symm
      subst hl'
      subst hveq
      simp [add_comm]
    · have hv' : (v.vm_id == vm.vm_id) = false := by
        cases h2 : (v.vm_id == vm.vm_id) with
        | false => rfl
        | true => exact absurd h2 hv
      rw [removeVmById] at hrm
      rw [hv'] at hrm
      simp only [Bool.false_eq_true, if_false] at hrm
      cases hrm2 : removeVmById vm.vm_id rest with
      | none => rw [hrm2] at hrm; simp at hrm
      | some l2 =>
        rw [hrm2] at hrm
        have hl' : l' = v :: l2 := (Option.some_inj.mp hrm).symm
        subst hl'
        have := ih hrm2 (fun w hw he => hid w (List.mem_cons_of_mem v hw) he)
        simp only [List.map_cons, List.sum_cons]
        omega

lemma vmCount_cons (vid : Nat) (x : Host) (rest : List Host) :
    vmCount vid (x :: rest) = vmCountIn vid x + vmCount vid rest := by
  simp [vmCount]

lemma vmCount_updateHost {h : Host} :
    ∀ {fl : List Host} {h0 : Host}, findHost h.host_id fl = some h0 →
    ∀ vid : Nat,
      vmCount vid (updateHost h fl) + vmCountIn vid h0 =
        vmCount vid fl + vmCountIn vid h := by
  intro fl
  induction fl with
  | nil => intro h0 hf; simp [findHost] at hf
  | cons x rest ih =>
    intro h0 hf vid
    by_cases hx : (x.host_id == h.host_id) = true
    · have hx0 : h0 = x := by
        rw [findHost] at hf
        rw [hx] at hf
        simp at hf
        exact hf.symm
      have hupd : updateHost h (x :: rest) = h :: rest := by
        simp [updateHost, hx]
      rw [hupd, vmCount_cons, vmCount_cons, hx0]
      omega
    · have hx' : (x.host_id == h.host_id) = false := by
        cases h2 : (x.host_id == h.host_id) with
        | false => rfl
        | true => exact absurd h2 hx
      rw [findHost] at hf
      rw [hx'] at hf
      simp only [Bool.false_eq_true, if_false] at hf
      have := ih hf vid
      have hupd : updateHost h (x :: rest) = x :: updateHost h rest := by
        simp [updateHost, hx']
      rw [hupd, vmCount_cons, vmCount_cons]
      omega

lemma vmCountIn_append_vm (vid : Nat) (h : Host) (vm : VM) :
    vmCountIn vid (h.append_vm vm) =
      vmCountIn vid h + (if vm.vm_id = vid then 1 else 0) := by
  by_cases hv : vm.vm_id = vid
  · have hv2 : (vm.vm_id == vid) = true := beq_iff_eq.mpr hv
    simp [vmCountIn, Host.append_vm, List.filter_append, hv, hv2]
  · have hv2 : (vm.vm_id == vid) = false := beq_false_of_ne hv
    simp [vmCountIn, Host.append_vm, List.filter_append, hv, hv2]

lemma vmCountIn_srcAfter (vid : Nat) (vm : VM) (src : Host) (l' : List VM)
    (hrm : removeVmById vm.vm_id src.vms = some l') :
    vmCountIn vid (srcAfter vm src l') + (if vm.vm_id = vid then 1 else 0) =
      vmCountIn vid src := by
  have := removeVmById_count hrm vid
  simpa [vmCountIn, srcAfter] using this

/-- Successful calls of `migrate_vm` satisfy all the checks of the success
path; this inverts the definition. -/
lemma migrate_vm_success_inv {dry : Bool} {exec : VM → Host → Host → Bool}
    {vm : VM} {s d : Nat} {fl : List Host} {rep : Option Bool}
    (hsucc : (migrate_vm dry exec vm s d fl).outcome = MigOutcome.success rep) :
    vm.has_affinity = false ∧ s ≠ d ∧
    ∃ src dst l', findHost d fl = some dst ∧ dst.memory_free ≥ vm.memory_required ∧
      findHost s fl = some src ∧ removeVmById vm.vm_id src.vms = some l' := by
  by_cases ha : vm.has_affinity = true
  · simp [migrate_vm, ha] at hsucc
  · have ha' : vm.has_affinity = false := Bool.eq_false_iff.mpr ha
    by_cases hsd : (s == d) = true
    · simp [migrate_vm, ha', hsd] at hsucc
    · have hsd' : (s == d) = false := Bool.eq_false_iff.mpr hsd
      cases hfd : findHost d fl with
      | none => simp [migrate_vm, ha', hsd', hfd] at hsucc
      | some dst =>
        by_cases hcap : dst.memory_free ≥ vm.memory_required
        · cases hfs : findHost s fl with
          | none => simp [migrate_vm, ha', hsd', hfd, hcap, hfs] at hsucc
          | some src =>
            cases hrm : removeVmById vm.vm_id src.vms with
            | none =>
              simp [migrate_vm, ha', hsd', hfd, hcap, hfs, Host.remove_vm, hrm] at hsucc
            | some l' =>
              exact ⟨ha', ne_of_beq_false hsd', src, dst, l', rfl, hcap, rfl, hrm⟩
        · simp [migrate_vm, ha', hsd', hfd, hcap] at hsucc

/-- On every successful `migrate_vm` the per-id multiplicity across the
whole fleet is preserved. -/
lemma migrate_vm_vmCount_eq {dry : Bool} {exec : VM → Host → Host → Bool}
    {vm : VM} {s d : Nat} {fl : List Host} {src dst : Host} {l' : List VM}
    (ha : vm.has_affinity = false) (hsd : s ≠ d)
    (hd : findHost d fl = some dst) (hcap : dst.memory_free ≥ vm.memory_required)
    (hs : findHost s fl = some src)
    (hrm : removeVmById vm.vm_id src.vms = some l') (vid : Nat) :
    vmCount vid (migrate_vm dry exec vm s d fl).fleet = vmCount vid fl := by
  have hsid : src.host_id = s := findHost_some_id hs
  have hdid : dst.host_id = d := findHost_some_id hd
  rw [migrate_vm_success_fleet dry exec ha hsd hd hcap hs hrm]
  have h1 : findHost (srcAfter vm src l').host_id fl = some src := by
    have : (srcAfter vm src l').host_id = s := hsid
    rw [this, hs]
  have e1 := vmCount_updateHost h1 vid
  have h2 : findHost (dst.append_vm vm).host_id (updateHost (srcAfter vm src l') fl) =
      some dst := by
    have hdid1 : (dst.append_vm vm).host_id = d := hdid
    have hne : d ≠ (srcAfter vm src l').host_id := by
      have : (srcAfter vm src l').host_id = s := hsid
      rw [this]
      exact fun e => hsd e.symm
    rw [hdid1, findHost_updateHost_ne hne, hd]
  have e2 := vmCount_updateHost h2 vid
  have c1 := vmCountIn_srcAfter vid vm src l' hrm
  have c2 := vmCountIn_append_vm vid dst vm
  by_cases hvid : vm.vm_id = vid
  · simp only [hvid, if_pos] at c1 c2
    omega
  · simp only [hvid, if_neg, if_false] at c1 c2
    omega

/-- C2: on every successful migration, a VM owned by exactly one host
before the call is owned by exactly one host after it; no VM of a different
id changes owner anywhere in the fleet; and the migrated VM is removed from
the source collection and appended to the destination collection. -/
theorem migrate_vm_single_owner
    (dry : Bool) (exec : VM → Host → Host → Bool) (vm : VM) (s d : Nat)
    (fl : List Host) (rep : Option Bool)
    (hsucc : (migrate_vm dry exec vm s d fl).outcome = MigOutcome.success rep) :
    (vmCount vm.vm_id fl = 1 →
      vmCount vm.vm_id (migrate_vm dry exec vm s d fl).fleet = 1) ∧
    (∀ vid hid : Nat, vid ≠ vm.vm_id →
      countOfIn vid hid (migrate_vm dry exec vm s d fl).fleet = countOfIn vid hid fl) ∧
    (∃ src dst l', findHost s fl = some src ∧ findHost d fl = some dst ∧
      removeVmById vm.vm_id src.vms = some l' ∧
      (findHost s (migrate_vm dry exec vm s d fl).fleet).map Host.vms = some l' ∧
      (findHost d (migrate_vm dry exec vm s d fl).fleet).map Host.vms =
        some (dst.vms ++ [vm])) := by
  obtain ⟨ha, hsd, src, dst, l', hd, hcap, hs, hrm⟩ := migrate_vm_success_inv hsucc
  have hlk := migrate_vm_success_fleet_lookup dry exec ha hsd hd hcap hs hrm
  refine ⟨?_, ?_, src, dst, l', hs, hd, hrm, hlk.1, hlk.2⟩
  · intro hone
    rw [migrate_vm_vmCount_eq ha hsd hd hcap hs hrm vm.vm_id]
    exact hone
  · intro vid hid hvid
    have hsid : src.host_id = s := findHost_some_id hs
    have hdid : dst.host_id = d := findHost_some_id hd
    by_cases hhs : hid = s
    · subst hhs
      have hfind := migrate_vm_success_findHost_src dry exec ha hsd hd hcap hs hrm
      have c1 := vmCountIn_srcAfter vid vm src l' hrm
      have hvm : vm.vm_id ≠ vid := fun e => hvid e.symm
      rw [if_neg hvm] at c1
      simp [countOfIn, hfind, hs]
      omega
    · by_cases hhd : hid = d
      · subst hhd
        have hfind := migrate_vm_success_findHost_dst dry exec ha hsd hd hcap hs hrm
        have c2 := vmCountIn_append_vm vid dst vm
        have hvm : vm.vm_id ≠ vid := fun e => hvid e.symm
        rw [if_neg hvm] at c2
        simp [countOfIn, hfind, hd]
        omega
      · have hne1 : hid ≠ (dst.append_vm vm).host_id := by
          have : (dst.append_vm vm).host_id = d := hdid
          rw [this]; exact hhd
        have hne2 : hid ≠ (srcAfter vm src l').host_id := by
          have : (srcAfter vm src l').host_id = s := hsid
          rw [this]; exact hhs
        rw [migrate_vm_success_fleet dry exec ha hsd hd hcap hs hrm]
        simp [countOfIn, findHost_updateHost_ne hne1, findHost_updateHost_ne hne2]

/-- C2 witness: the ownership conclusions at the concrete two-host fleet. -/
theorem migrate_vm_single_owner_witness :
    (vmCount exLinux.vm_id exFleet = 1 →
      vmCount exLinux.vm_id (migrate_vm false execTrue exLinux 1 2 exFleet).fleet = 1) ∧
    (∀ vid hid : Nat, vid ≠ exLinux.vm_id →
      countOfIn vid hid (migrate_vm false execTrue exLinux 1 2 exFleet).fleet =
        countOfIn vid hid exFleet) ∧
    (∃ src dst l', findHost 1 exFleet = some src ∧ findHost 2 exFleet = some dst ∧
      removeVmById exLinux.vm_id src.vms = some l' ∧
      (findHost 1 (migrate_vm false execTrue exLinux 1 2 exFleet).fleet).map Host.vms =
        some l' ∧
      (findHost 2 (migrate_vm false execTrue exLinux 1 2 exFleet).fleet).map Host.vms =
        some (dst.vms ++ [exLinux])) :=
  migrate_vm_single_owner false execTrue exLinux 1 2 exFleet (some true) (by decide)

/-- C3: the `memory_allocated == sum(memory_required)` bookkeeping is
preserved by `append_vm`, by every `remove_vm` that completes (during a run
the removed VM is always drawn from the host's own list, so `list.remove`
cannot raise), and hence by every migration of a run, successful or failed
(`outcome ≠ valueErr` states exactly that the `ValueError` path — never
reached during a run — is not taken).  The identity hypothesis says that a
fleet VM carrying the migrated VM's id is that VM, which models Python
object identity under fleet-unique VM ids. -/
theorem memory_allocated_invariant :
    (∀ (h : Host) (vm : VM), memInv h → memInv (h.append_vm vm)) ∧
    (∀ (h : Host) (vm : VM) (h1 : Host),
       memInv h → (∀ w ∈ h.vms, w.vm_id = vm.vm_id → w = vm) →
       h.remove_vm vm = (h1, true) → memInv h1) ∧
    (∀ (dry : Bool) (exec : VM → Host → Host → Bool) (vm : VM) (s d : Nat)
       (fl : List Host),
       (∀ h ∈ fl, memInv h) →
       (∀ h ∈ fl, ∀ w ∈ h.vms, w.vm_id = vm.vm_id → w = vm) →
       (migrate_vm dry exec vm s d fl).outcome ≠ MigOutcome.valueErr →
       ∀ h ∈ (migrate_vm dry exec vm s d fl).fleet, memInv h) := by
  have happend : ∀ (h : Host) (vm : VM), memInv h → memInv (h.append_vm vm) := by
    intro h vm hinv
    simp only [memInv, Host.append_vm, List.map_append, List.sum_append,
      List.map_cons, List.sum_cons, List.map_nil, List.sum_nil] at *
    omega
  have hremove : ∀ (h : Host) (vm : VM) (h1 : Host),
      memInv h → (∀ w ∈ h.vms, w.vm_id = vm.vm_id → w = vm) →
      h.remove_vm vm = (h1, true) → memInv h1 := by
    intro h vm h1 hinv hid hrm
    rw [Host.remove_vm] at hrm
    cases hrm2 : removeVmById vm.vm_id h.vms with
    | none =>
      rw [hrm2] at hrm
      simp at hrm
    | some l =>
      rw [hrm2] at hrm
      simp only [Prod.mk.injEq] at hrm
      have hsum := removeVmById_sum hrm2 hid
      have h1eq : h1 = { h with memory_allocated := h.memory_allocated - vm.memory_required,
                                vms := l } := hrm.1.symm
      subst h1eq
      simp only [memInv] at *
      omega
  refine ⟨happend, hremove, ?_⟩
  intro dry exec vm s d fl hinv hid houtcome
  by_cases ha : vm.has_affinity = true
  · simp [migrate_vm, ha]
    exact hinv
  · have ha' : vm.has_affinity = false := Bool.eq_false_iff.mpr ha
    by_cases hsd : (s == d) = true
    · simp [migrate_vm, ha', hsd]
      exact hinv
    · have hsd' : (s == d) = false := Bool.eq_false_iff.mpr hsd
      cases hfd : findHost d fl with
      | none =>
        simp [migrate_vm, ha', hsd', hfd]
        exact hinv
      | some dst =>
        by_cases hcap : dst.memory_free ≥ vm.memory_required
        · cases hfs : findHost s fl with
          | none =>
            simp [migrate_vm, ha', hsd', hfd, hcap, hfs]
            exact hinv
          | some src =>
            cases hrm : removeVmById vm.vm_id src.vms with
            | none =>
              exact absurd (by simp [migrate_vm, ha', hsd', hfd, hcap, hfs,
                Host.remove_vm, hrm]) houtcome
            | some l' =>
              rw [migrate_vm_success_fleet dry exec ha' (ne_of_beq_false hsd')
                hfd hcap hfs hrm]
              intro h hmem
              rcases mem_updateHost hmem with he | hmem1
              · subst he
                exact happend dst vm (hinv dst (findHost_mem hfd))
              · rcases mem_updateHost hmem1 with he | hmem2
                · subst he
                  have hsrcmem := findHost_mem hfs
                  have hsum := removeVmById_sum hrm (hid src hsrcmem)
                  have := hinv src hsrcmem
                  simp only [memInv, srcAfter] at *
                  omega
                · exact hinv h hmem2
        · simp [migrate_vm, ha', hsd', hfd, hcap]
          exact hinv

/-- C3 witness: the invariant conclusions at concrete hosts and a concrete
successful migration. -/
theorem memory_allocated_invariant_witness :
    memInv (Host.append_vm exDst exLinux) ∧
    (∀ h ∈ (migrate_vm false execTrue exLinux 1 2 exFleet).fleet, memInv h) :=
  ⟨memory_allocated_invariant.1 exDst exLinux (by decide),
   memory_allocated_invariant.2.2 false execTrue exLinux 1 2 exFleet
     (by decide) (by decide) (by decide)⟩

/-- The VM loop of `magic` always yields a value when the recursive call is
total below `n` and the current host-list copy has at most `n` entries; a
normally-finished loop returns a copy no longer than it started with. -/
lemma vmLoopM_isSome {n : Nat}
    {rec : List Nat → List Host → Option (Except PyErr (List Host))}
    (hrec : ∀ hl fl, hl.length < n → (rec hl fl).isSome)
    (dry : Bool) (exec : VM → Host → Host → Bool) (e s : Nat) :
    ∀ (vms : List VM) (hl : List Nat) (fl : List Host), hl.length ≤ n →
      ∃ r, vmLoopM rec dry exec e s vms hl fl = some r ∧
        ∀ fl1 hl1, r = Except.ok (MagicLoopRes.cont fl1 hl1) →
          hl1.length ≤ hl.length := by
  intro vms
  induction vms with
  | nil =>
    intro hl fl hle
    refine ⟨Except.ok (MagicLoopRes.cont fl hl), rfl, ?_⟩
    intro fl1 hl1 h
    cases h
    exact le_refl _
  | cons vm rest ih =>
    intro hl fl hle
    cases ho : (migrate_vm dry exec vm s e fl).outcome with
    | success rep =>
      obtain ⟨r, hr, hmono⟩ := ih hl (migrate_vm dry exec vm s e fl).fleet hle
      exact ⟨r, by simp [vmLoopM, ho, hr], hmono⟩
    | affinityErr =>
      obtain ⟨r, hr, hmono⟩ := ih hl (migrate_vm dry exec vm s e fl).fleet hle
      exact ⟨r, by simp [vmLoopM, ho, hr], hmono⟩
    | sameHostErr =>
      refine ⟨Except.error PyErr.sameHost, by simp [vmLoopM, ho], ?_⟩
      intro fl1 hl1 h
      cases h
    | valueErr =>
      refine ⟨Except.error PyErr.valueError, by simp [vmLoopM, ho], ?_⟩
      intro fl1 hl1 h
      cases h
    | lookupErr =>
      refine ⟨Except.error PyErr.lookupError, by simp [vmLoopM, ho], ?_⟩
      intro fl1 hl1 h
      cases h
    | notEnoughErr =>
      by_cases hc : (hl.contains e) = true
      · have hmem : e ∈ hl := by simpa using hc
        have hlen1 : (hl.erase e).length = hl.length - 1 :=
          List.length_erase_of_mem hmem
        have hpos : 1 ≤ hl.length := List.length_pos.mpr (List.ne_nil_of_mem hmem)
        have hlt : (hl.erase e).length < n := by omega
        have hsome := hrec (hl.erase e) (migrate_vm dry exec vm s e fl).fleet hlt
        cases hrecv : rec (hl.erase e) (migrate_vm dry exec vm s e fl).fleet with
        | none => rw [hrecv] at hsome; simp at hsome
        | some r2 =>
          cases r2 with
          | error e2 =>
            refine ⟨Except.error e2, by simp [vmLoopM, ho, hmem, hrecv], ?_⟩
            intro fl1 hl1 h
            cases h
          | ok fl2 =>
            obtain ⟨r, hr, hmono⟩ := ih (hl.erase e) fl2 (by omega)
            refine ⟨r, by simp [vmLoopM, ho, hmem, hrecv, hr], ?_⟩
            intro fl1 hl1 h
            have := hmono fl1 hl1 h
            omega
      · have hnmem : e ∉ hl := by simpa using hc
        refine ⟨Except.ok (MagicLoopRes.ret (migrate_vm dry exec vm s e fl).fleet),
          by simp [vmLoopM, ho, hnmem], ?_⟩
        intro fl1 hl1 h
        cases h

/-- The source-host loop of `magic` always yields a value when the
recursive call is total below `n` and the copy is at most `n` long. -/
lemma fillLoop_isSome {n : Nat}
    {rec : List Nat → List Host → Option (Except PyErr (List Host))}
    (hrec : ∀ hl fl, hl.length < n → (rec hl fl).isSome)
    (dry : Bool) (exec : VM → Host → Host → Bool) (e : Nat) :
    ∀ (srcs : List Nat) (hl : List Nat) (fl : List Host), hl.length ≤ n →
      (fillLoop rec dry exec e srcs hl fl).isSome := by
  intro srcs
  induction srcs with
  | nil =>
    intro hl fl hle
    simp [fillLoop]
  | cons s rest ih =>
    intro hl fl hle
    cases hfind : findHost s fl with
    | none =>
      obtain ⟨r, hr, hmono⟩ := vmLoopM_isSome hrec dry exec e s [] hl fl hle
      cases r with
      | error e2 => simp [fillLoop, hfind, hr]
      | ok lr =>
        cases lr with
        | ret fl1 => simp [fillLoop, hfind, hr]
        | cont fl1 hl1 =>
          have hle1 : hl1.length ≤ n := le_trans (hmono fl1 hl1 rfl) hle
          simp only [fillLoop, hfind, hr]
          exact ih hl1 fl1 hle1
    | some src =>
      obtain ⟨r, hr, hmono⟩ := vmLoopM_isSome hrec dry exec e s
        ((src.vms.filter VM.is_windows).insertionSort ascMemReq) hl fl hle
      cases r with
      | error e2 => simp [fillLoop, hfind, hr]
      | ok lr =>
        cases lr with
        | ret fl1 => simp [fillLoop, hfind, hr]
        | cont fl1 hl1 =>
          have hle1 : hl1.length ≤ n := le_trans (hmono fl1 hl1 rfl) hle
          simp only [fillLoop, hfind, hr]
          exact ih hl1 fl1 hle1

/-- C9: the fuelled `magic` never exhausts its fuel once the fuel exceeds
the host-list length: every recursive call removes the emptiest host from
the copy before recursing, so the list strictly shrinks by one per level
and the recursion bottoms out on every finite host list. -/
theorem magic_terminates
    (fuel : Nat) (hl : List Nat) (fl : List Host) (dry : Bool)
    (exec : VM → Host → Host → Bool) (hlen : hl.length < fuel) :
    (magicF dry exec fuel hl fl).isSome := by
  induction fuel generalizing hl fl with
  | zero => exact absurd hlen (Nat.not_lt_zero _)
  | succ fuel ih =>
    cases hprep : prepare_emptiest_host dry exec hl fl with
    | error e => simp [magicF, hprep]
    | ok fl1 =>
      cases hme : most_empty_stack (hl.filterMap (fun i => findHost i fl1)) with
      | nil => simp [magicF, hprep, hme]
      | cons emptiest rest =>
        simp only [magicF, hprep, hme]
        exact fillLoop_isSome (fun hl' fl' h => ih hl' fl' h) dry exec
          emptiest.host_id ((least_windows_stack rest).map Host.host_id) hl fl1
          (Nat.lt_succ_iff.mp hlen)

/-- C9 witness: on the concrete two-host fleet with fuel 3 the fuelled
`magic` returns a value. -/
theorem magic_terminates_witness :
    ([1, 2] : List Nat).length < 3 ∧
    (magicF false execTrue 3 [1, 2] exFleet).isSome :=
  ⟨by decide, magic_terminates 3 [1, 2] exFleet false execTrue (by decide)⟩

/-- One pass of the inner pair loop of `most_empty_stack` only appends to
`tmp_b` the hosts agreeing with `i` by id or by free memory. -/
lemma inner_foldl_snd (i : Host) :
    ∀ (l' : List Host) (st : List Host × List Host),
      (l'.foldl (mostEmptyInner i) st).2 =
        st.2 ++ l'.filter (fun n => n.host_id == i.host_id || n.memory_free == i.memory_free) := by
  intro l'
  induction l' with
  | nil => intro st; simp
  | cons n rest ih =>
    intro st
    rw [List.foldl_cons, ih]
    by_cases h1 : (n.host_id == i.host_id) = true
    · simp [mostEmptyInner, h1, List.filter_cons]
    · have h1' : (n.host_id == i.host_id) = false := Bool.eq_false_iff.mpr h1
      by_cases h2 : (n.memory_free == i.memory_free) = true
      · simp [mostEmptyInner, h1', h2, List.filter_cons]
      · have h2' : (n.memory_free == i.memory_free) = false := Bool.eq_false_iff.mpr h2
        simp [mostEmptyInner, h1', h2', List.filter_cons]

/-- The `tmp_b` accumulator after the whole pair loop, in closed form. -/
lemma outer_foldl_snd (l : List Host) :
    ∀ (lo : List Host) (st : List Host × List Host),
      (lo.foldl (fun st i => l.foldl (mostEmptyInner i) st) st).2 =
        st.2 ++ lo.flatMap (fun i =>
          l.filter (fun n => n.host_id == i.host_id || n.memory_free == i.memory_free)) := by
  intro lo
  induction lo with
  | nil => intro st; simp
  | cons i rest ih =>
    intro st
    rw [List.foldl_cons, ih, inner_foldl_snd]
    simp

/-- The diagonal step of the pair loop (`n == i`): append and resort by
free memory descending. -/
lemma mostEmptyInner_diag (a : Host) (st : List Host × List Host) :
    mostEmptyInner a st a =
      ((st.2 ++ [a]).insertionSort descMemFree, st.2 ++ [a]) := by
  simp [mostEmptyInner]

/-- Only the final assignment of `tmp_a` survives the pair loop, and it is
the stable descending sort by free memory of the final `tmp_b` (the last
processed pair is the diagonal one `(last, last)`). -/
lemma most_empty_stack_eq (l : List Host) (hne : l ≠ []) :
    most_empty_stack l = dedupHosts ((tmpB l).insertionSort descMemFree) [] := by
  rcases List.eq_nil_or_concat l with h | ⟨L, a, h⟩
  · exact absurd h hne
  · rw [List.concat_eq_append] at h
    subst h
    unfold most_empty_stack
    have hfull : (L ++ [a]).foldl
        (fun st i => (L ++ [a]).foldl (mostEmptyInner i) st) ([], []) =
        mostEmptyInner a
          (L.foldl (mostEmptyInner a)
            (L.foldl (fun st i => (L ++ [a]).foldl (mostEmptyInner i) st) ([], []))) a := by
      rw [List.foldl_concat]
      rw [List.foldl_concat]
    have hsnd := outer_foldl_snd (L ++ [a]) (L ++ [a]) ([], [])
    rw [hfull, mostEmptyInner_diag] at hsnd
    rw [hfull, mostEmptyInner_diag]
    simp only [List.nil_append] at hsnd
    rw [show tmpB (L ++ [a]) = (L ++ [a]).flatMap (fun i =>
      (L ++ [a]).filter (fun n => n.host_id == i.host_id || n.memory_free == i.memory_free))
      from rfl]
    rw [← hsnd]

/-- Every element of `tmp_b` is an input host. -/
lemma tmpB_subset (l : List Host) : ∀ x ∈ tmpB l, x ∈ l := by
  intro x hx
  rw [tmpB, List.mem_flatMap] at hx
  obtain ⟨i, _, hx2⟩ := hx
  exact (List.mem_filter.mp hx2).1

/-- Every input host reaches `tmp_b` (through its own diagonal pair). -/
lemma tmpB_mem_self (l : List Host) : ∀ x ∈ l, x ∈ tmpB l := by
  intro x hx
  rw [tmpB, List.mem_flatMap]
  exact ⟨x, hx, List.mem_filter.mpr ⟨hx, by simp⟩⟩

/-- The final `result` loop of `most_empty_stack` only appends fresh hosts
after the accumulator, keeping a subsequence of its input. -/
lemma dedupHosts_append :
    ∀ (s acc : List Host), ∃ t, dedupHosts s acc = acc ++ t ∧ t.Sublist s := by
  intro s
  induction s with
  | nil => intro acc; exact ⟨[], by simp [dedupHosts], List.nil_sublist _⟩
  | cons i rest ih =>
    intro acc
    by_cases hmem : (acc.any (fun r => r.host_id == i.host_id)) = true
    · obtain ⟨t, ht, hsub⟩ := ih acc
      exact ⟨t, by simp [dedupHosts, hmem, ht], hsub.cons i⟩
    · have hmem' : (acc.any (fun r => r.host_id == i.host_id)) = false :=
        Bool.eq_false_iff.mpr hmem
      obtain ⟨t, ht, hsub⟩ := ih (acc ++ [i])
      refine ⟨i :: t, ?_, hsub.cons₂ i⟩
      simp [dedupHosts, hmem', ht]

/-- The accumulator survives into the result of the dedup loop. -/
lemma dedupHosts_acc_subset (s acc : List Host) : acc ⊆ dedupHosts s acc := by
  obtain ⟨t, ht, _⟩ := dedupHosts_append s acc
  rw [ht]
  exact fun x hx => List.mem_append_left _ hx

/-- The dedup loop never lets two hosts of equal id into the result. -/
lemma dedupHosts_ids_nodup :
    ∀ (s acc : List Host), ((acc.map Host.host_id).Nodup) →
      (((dedupHosts s acc).map Host.host_id).Nodup) := by
  intro s
  induction s with
  | nil => intro acc h; simpa [dedupHosts] using h
  | cons i rest ih =>
    intro acc hacc
    by_cases hmem : (acc.any (fun r => r.host_id == i.host_id)) = true
    · simpa [dedupHosts, hmem] using ih acc hacc
    · have hmem' : (acc.any (fun r => r.host_id == i.host_id)) = false :=
        Bool.eq_false_iff.mpr hmem
      have hni : i.host_id ∉ acc.map Host.host_id := by
        intro hmm
        rw [List.mem_map] at hmm
        obtain ⟨r, hr, hrid⟩ := hmm
        exact hmem (List.any_eq_true.mpr ⟨r, hr, by simp [hrid]⟩)
      have hstep : (((acc ++ [i]).map Host.host_id).Nodup) := by
        simp [List.nodup_append, hacc, hni]
      simpa [dedupHosts, hmem'] using ih (acc ++ [i]) hstep

/-- Every id appearing in the dedup loop's input is represented in its
result. -/
lemma dedupHosts_covers :
    ∀ (s acc : List Host) (x : Host), x ∈ s →
      ∃ y ∈ dedupHosts s acc, y.host_id = x.host_id := by
  intro s
  induction s with
  | nil => intro acc x hx; simp at hx
  | cons i rest ih =>
    intro acc x hx
    by_cases hmem : (acc.any (fun r => r.host_id == i.host_id)) = true
    · rcases List.mem_cons.mp hx with he | hx2
      · obtain ⟨r, hr, hrid⟩ := List.any_eq_true.mp hmem
        refine ⟨r, ?_, ?_⟩
        · have : dedupHosts (i :: rest) acc = dedupHosts rest acc := by
            simp [dedupHosts, hmem]
          rw [this]
          exact dedupHosts_acc_subset rest acc hr
        · rw [he]
          exact beq_iff_eq.mp hrid
      · have : dedupHosts (i :: rest) acc = dedupHosts rest acc := by
          simp [dedupHosts, hmem]
        rw [this]
        exact ih acc x hx2
    · have hmem' : (acc.any (fun r => r.host_id == i.host_id)) = false :=
        Bool.eq_false_iff.mpr hmem
      have hstep : dedupHosts (i :: rest) acc = dedupHosts rest (acc ++ [i]) := by
        simp [dedupHosts, hmem']
      rcases List.mem_cons.mp hx with he | hx2
      · refine ⟨i, ?_, by rw [he]⟩
        rw [hstep]
        exact dedupHosts_acc_subset rest (acc ++ [i]) (by simp)
      · rw [hstep]
        exact ih (acc ++ [i]) x hx2

/-- The dedup loop over a concatenation is the composition of the loops. -/
lemma dedupHosts_compose :
    ∀ (s1 s2 acc : List Host),
      dedupHosts (s1 ++ s2) acc = dedupHosts s2 (dedupHosts s1 acc) := by
  intro s1
  induction s1 with
  | nil => intro s2 acc; rfl
  | cons i rest ih =>
    intro s2 acc
    by_cases hmem : (acc.any (fun r => r.host_id == i.host_id)) = true
    · simp [dedupHosts, hmem, ih]
    · have hmem' : (acc.any (fun r => r.host_id == i.host_id)) = false :=
        Bool.eq_false_iff.mpr hmem
      simp [dedupHosts, hmem', ih]

/-- A two-element sublist splits its ambient list at the first element. -/
lemma pair_sublist_split {a b : Host} :
    ∀ {t : List Host}, [a, b].Sublist t →
      ∃ t1 t2, t = t1 ++ a :: t2 ∧ b ∈ t2 := by
  intro t
  induction t with
  | nil => intro h; cases h
  | cons x rest ih =>
    intro h
    cases h with
    | cons _ h2 =>
      obtain ⟨t1, t2, ht, hb⟩ := ih h2
      exact ⟨x :: t1, t2, by rw [ht]; rfl, hb⟩
    | cons₂ _ h2 =>
      exact ⟨[], rest, rfl, List.singleton_sublist.mp h2⟩

/-- A decomposition of a filtered list lifts to a decomposition of the
list itself. -/
lemma filter_split (p : Host → Bool) :
    ∀ {s c1 c2 : List Host} {a : Host}, s.filter p = c1 ++ a :: c2 →
      ∃ s1 s2, s = s1 ++ a :: s2 ∧ s1.filter p = c1 ∧ s2.filter p = c2 := by
  intro s
  induction s with
  | nil =>
    intro c1 c2 a h
    rw [List.filter_nil] at h
    exact absurd h (by simp)
  | cons x rest ih =>
    intro c1 c2 a h
    by_cases hpx : p x = true
    · rw [List.filter_cons, if_pos hpx] at h
      cases c1 with
      | nil =>
        rw [List.nil_append] at h
        injection h with hxa hrest
        refine ⟨[], rest, ?_, rfl, hrest⟩
        rw [hxa, List.nil_append]
      | cons y c1tl =>
        rw [List.cons_append] at h
        injection h with hxy hrest
        obtain ⟨s1, s2, hs, h1, h2⟩ := ih hrest
        refine ⟨x :: s1, s2, ?_, ?_, h2⟩
        · rw [hs, List.cons_append]
        · rw [List.filter_cons, if_pos hpx, h1, hxy]
    · rw [List.filter_cons, if_neg hpx] at h
      obtain ⟨s1, s2, hs, h1, h2⟩ := ih h
      refine ⟨x :: s1, s2, ?_, ?_, h2⟩
      · rw [hs, List.cons_append]
      · rw [List.filter_cons, if_neg hpx, h1]

/-- Stability of the embedded sort on a tie class: filtering the sorted
list to one free-memory value returns the same list as filtering the input
(all such hosts compare equal, so the stable sort keeps their order). -/
lemma sort_filter_mfclass (t : List Host) (cmf : Int) :
    (t.insertionSort descMemFree).filter (fun n => n.memory_free == cmf) =
      t.filter (fun n => n.memory_free == cmf) := by
  have hclass : ∀ x ∈ t.filter (fun n => n.memory_free == cmf),
      x.memory_free = cmf := by
    intro x hx
    exact beq_iff_eq.mp (List.mem_filter.mp hx).2
  have hpw : (t.filter (fun n => n.memory_free == cmf)).Pairwise descMemFree := by
    apply List.pairwise_of_forall_mem_list
    intro x hx y hy
    show y.memory_free ≤ x.memory_free
    rw [hclass x hx, hclass y hy]
  have hsub : (t.filter (fun n => n.memory_free == cmf)).Sublist
      (t.insertionSort descMemFree) :=
    List.sublist_insertionSort hpw (List.filter_sublist t)
  have hidem : (t.filter (fun n => n.memory_free == cmf)).filter
      (fun n => n.memory_free == cmf) = t.filter (fun n => n.memory_free == cmf) := by
    rw [List.filter_eq_self]
    intro x hx
    exact (List.mem_filter.mp hx).2
  have hsub2 : (t.filter (fun n => n.memory_free == cmf)).Sublist
      ((t.insertionSort descMemFree).filter (fun n => n.memory_free == cmf)) := by
    have := List.Sublist.filter (fun n => n.memory_free == cmf) hsub
    rwa [hidem] at this
  have hperm : ((t.insertionSort descMemFree).filter (fun n => n.memory_free == cmf)).Perm
      (t.filter (fun n => n.memory_free == cmf)) :=
    (List.perm_insertionSort descMemFree t).filter _
  exact (hsub2.eq_of_length hperm.length_eq.symm).symm

/-- Under fleet-unique ids a pair-loop block keeps exactly the hosts tying
with `i` on free memory (the id disjunct only re-admits `i` itself). -/
lemma cond_filter_eq_mf {l : List Host} (hnodup : (l.map Host.host_id).Nodup)
    {i : Host} (hi : i ∈ l) :
    l.filter (fun n => n.host_id == i.host_id || n.memory_free == i.memory_free) =
      l.filter (fun n => n.memory_free == i.memory_free) := by
  apply List.filter_congr
  intro x hx
  by_cases hid : (x.host_id == i.host_id) = true
  · have : x = i := List.inj_on_of_nodup_map hnodup hx hi (beq_iff_eq.mp hid)
    simp [this]
  · have hid' : (x.host_id == i.host_id) = false := Bool.eq_false_iff.mpr hid
    simp [hid']

/-- Filtering a pair-loop block to the tie class of `a` yields the whole
class when `i` ties with `a` and nothing otherwise. -/
lemma block_filter_class {l : List Host} (hnodup : (l.map Host.host_id).Nodup)
    {i : Host} (hi : i ∈ l) (a : Host) :
    (l.filter (fun n => n.host_id == i.host_id || n.memory_free == i.memory_free)).filter
      (fun n => n.memory_free == a.memory_free) =
      (if i.memory_free = a.memory_free
        then l.filter (fun n => n.memory_free == a.memory_free) else []) := by
  rw [cond_filter_eq_mf hnodup hi, List.filter_filter]
  by_cases hia : i.memory_free = a.memory_free
  · rw [if_pos hia]
    apply List.filter_congr
    intro x _
    rw [hia, Bool.and_self]
  · rw [if_neg hia]
    have : ∀ x ∈ l,
        ((x.memory_free == a.memory_free) && (x.memory_free == i.memory_free)) = false := by
      intro x _
      by_cases hxa : (x.memory_free == a.memory_free) = true
      · have hxi : (x.memory_free == i.memory_free) = false := by
          refine beq_false_of_ne ?_
          rw [beq_iff_eq.mp hxa]
          exact fun e => hia e.symm
        simp [hxi]
      · have hxa' : (x.memory_free == a.memory_free) = false := Bool.eq_false_iff.mpr hxa
        simp [hxa']
    calc List.filter (fun x => (x.memory_free == a.memory_free) &&
            (x.memory_free == i.memory_free)) l
        = List.filter (fun _ => false) l := List.filter_congr (by simpa using this)
      _ = [] := List.filter_false l

/-- Filtering `tmp_b` to the tie class of a member `a` starts with the
whole class of the input, in input order. -/
lemma tmpB_filter_class {l : List Host} (hnodup : (l.map Host.host_id).Nodup)
    {a : Host} (ha : a ∈ l) :
    ∃ D, (tmpB l).filter (fun n => n.memory_free == a.memory_free) =
      (l.filter (fun n => n.memory_free == a.memory_free)) ++ D := by
  have haux : ∀ lo : List Host, (∀ i ∈ lo, i ∈ l) →
      (∃ i ∈ lo, i.memory_free = a.memory_free) →
      ∃ D, (lo.flatMap (fun i =>
        l.filter (fun n => n.host_id == i.host_id || n.memory_free == i.memory_free))).filter
          (fun n => n.memory_free == a.memory_free) =
        (l.filter (fun n => n.memory_free == a.memory_free)) ++ D := by
    intro lo
    induction lo with
    | nil => intro _ hex; simp at hex
    | cons i rest ih =>
      intro hmem hex
      rw [List.flatMap_cons, List.filter_append]
      rw [block_filter_class hnodup (hmem i (by simp)) a]
      by_cases hia : i.memory_free = a.memory_free
      · rw [if_pos hia]
        exact ⟨_, rfl⟩
      · rw [if_neg hia, List.nil_append]
        have hex' : ∃ j ∈ rest, j.memory_free = a.memory_free := by
          obtain ⟨j, hj, hjmf⟩ := hex
          rcases List.mem_cons.mp hj with he | hj2
          · exact absurd (he ▸ hjmf) hia
          · exact ⟨j, hj2, hjmf⟩
        exact ih (fun j hj => hmem j (List.mem_cons_of_mem i hj)) hex'
  exact haux l (fun i hi => hi) ⟨a, ha, rfl⟩

/-- Ties keep their input order in `most_empty_stack`: two hosts of equal
free memory appearing in that order in the input appear in that order in
the ranking (the sort is stable and the dedup keeps first occurrences). -/
lemma most_empty_stack_stable {l : List Host} (hnodup : (l.map Host.host_id).Nodup)
    {a b : Host} (hab : [a, b].Sublist l) (hmf : a.memory_free = b.memory_free) :
    [a, b].Sublist (most_empty_stack l) := by
  have ha : a ∈ l := hab.subset (by simp)
  have hb : b ∈ l := hab.subset (by simp)
  have hlnodup : l.Nodup := List.Nodup.of_map _ hnodup
  have habnodup : ([a, b] : List Host).Nodup := List.Nodup.sublist hab hlnodup
  have habne : a ≠ b := by
    intro he
    rw [he] at habnodup
    simp at habnodup
  have hne : l ≠ [] := List.ne_nil_of_mem ha
  have hpa : (fun n => n.memory_free == a.memory_free) a = true := by simp
  have hpb : (fun n => n.memory_free == a.memory_free) b = true := by
    simp only []
    exact beq_iff_eq.mpr hmf.symm
  -- the sorted duplicated pool and its tie-class characterisation
  have hsfilter := sort_filter_mfclass (tmpB l) a.memory_free
  obtain ⟨D, hCD⟩ := tmpB_filter_class hnodup ha
  -- the input tie class contains a before b, with b only once
  have habC : [a, b].Sublist (l.filter (fun n => n.memory_free == a.memory_free)) := by
    have := List.Sublist.filter (fun n => n.memory_free == a.memory_free) hab
    rwa [show ([a, b] : List Host).filter (fun n => n.memory_free == a.memory_free)
      = [a, b] from by rw [List.filter_eq_self]; intro x hx
                       rcases List.mem_cons.mp hx with he | hx2
                       · rw [he]; exact hpa
                       · simp at hx2; rw [hx2]; exact hpb] at this
  have hCnodup : (l.filter (fun n => n.memory_free == a.memory_free)).Nodup :=
    List.Nodup.filter _ hlnodup
  obtain ⟨C1, C2, hCsplit, hbC2⟩ := pair_sublist_split habC
  have hbC1 : b ∉ C1 := by
    intro hbc
    rw [hCsplit] at hCnodup
    exact (List.nodup_append.mp hCnodup).2.2 hbc (List.mem_cons_of_mem a hbC2)
  -- split the sorted pool before the first b
  have hc : ((tmpB l).insertionSort descMemFree).filter
      (fun n => n.memory_free == a.memory_free) = C1 ++ a :: (C2 ++ D) := by
    rw [hsfilter, hCD, hCsplit]
    simp
  obtain ⟨s1, s2, hssplit, hs1f, hs2f⟩ := filter_split _ hc
  have hs_elems : ∀ y ∈ (tmpB l).insertionSort descMemFree, y ∈ l := by
    intro y hy
    exact tmpB_subset l y ((List.perm_insertionSort descMemFree (tmpB l)).subset hy)
  have hbid_s1 : ∀ y ∈ s1, y.host_id ≠ b.host_id := by
    intro y hy heq
    have hys : y ∈ (tmpB l).insertionSort descMemFree := by
      rw [hssplit]
      exact List.mem_append_left _ hy
    have hyb : y = b := List.inj_on_of_nodup_map hnodup (hs_elems y hys) hb heq
    rw [hyb] at hy
    have : b ∈ s1.filter (fun n => n.memory_free == a.memory_free) :=
      List.mem_filter.mpr ⟨hy, hpb⟩
    rw [hs1f] at this
    exact hbC1 this
  have habid : a.host_id ≠ b.host_id := by
    intro he
    exact habne (List.inj_on_of_nodup_map hnodup ha hb he)
  -- run the dedup loop over the split
  rw [most_empty_stack_eq l hne, hssplit, dedupHosts_compose]
  obtain ⟨t1, ht1, hsub1⟩ := dedupHosts_append s1 []
  rw [List.nil_append] at ht1
  have hbid_A1 : ∀ r ∈ dedupHosts s1 [], r.host_id ≠ b.host_id := by
    intro r hr
    rw [ht1] at hr
    exact hbid_s1 r (hsub1.subset hr)
  have hstep : ∃ acc2, dedupHosts (a :: s2) (dedupHosts s1 []) = dedupHosts s2 acc2 ∧
      a ∈ acc2 ∧ ∀ r ∈ acc2, r.host_id ≠ b.host_id := by
    by_cases hacase : ((dedupHosts s1 []).any (fun r => r.host_id == a.host_id)) = true
    · refine ⟨dedupHosts s1 [], by simp [dedupHosts, hacase], ?_, hbid_A1⟩
      obtain ⟨r, hr, hrid⟩ := List.any_eq_true.mp hacase
      have hrs1 : r ∈ s1 := by
        rw [ht1] at hr
        exact hsub1.subset hr
      have hrs : r ∈ (tmpB l).insertionSort descMemFree := by
        rw [hssplit]
        exact List.mem_append_left _ hrs1
      have : r = a :=
        List.inj_on_of_nodup_map hnodup (hs_elems r hrs) ha (beq_iff_eq.mp hrid)
      rw [← this]
      exact hr
    · have hacase' : ((dedupHosts s1 []).any (fun r => r.host_id == a.host_id)) = false :=
        Bool.eq_false_iff.mpr hacase
      refine ⟨dedupHosts s1 [] ++ [a], by simp [dedupHosts, hacase'], by simp, ?_⟩
      intro r hr
      rcases List.mem_append.mp hr with hr1 | hr2
      · exact hbid_A1 r hr1
      · rw [List.mem_singleton.mp hr2]
        exact habid
  obtain ⟨acc2, hrw, haacc, hbacc⟩ := hstep
  rw [hrw]
  obtain ⟨t2, ht2, hsub2⟩ := dedupHosts_append s2 acc2
  -- b sits in the freshly appended part
  have hbs : b ∈ (tmpB l).insertionSort descMemFree :=
    ((List.perm_insertionSort descMemFree (tmpB l)).mem_iff).mpr (tmpB_mem_self l b hb)
  have hbs2 : b ∈ s2 := by
    rw [hssplit] at hbs
    rcases List.mem_append.mp hbs with h1 | h2
    · exact absurd rfl (hbid_s1 b h1)
    · rcases List.mem_cons.mp h2 with he | h3
      · exact absurd he.symm habne
      · exact h3
  obtain ⟨y, hy, hyid⟩ := dedupHosts_covers s2 acc2 b hbs2
  have hyt2 : y ∈ t2 := by
    rw [ht2] at hy
    rcases List.mem_append.mp hy with h1 | h2
    · exact absurd hyid (hbacc y h1)
    · exact h2
  have hyb : y = b := by
    have hys2 : y ∈ s2 := hsub2.subset hyt2
    have hys : y ∈ (tmpB l).insertionSort descMemFree := by
      rw [hssplit]
      exact List.mem_append_right _ (List.mem_cons_of_mem a hys2)
    exact List.inj_on_of_nodup_map hnodup (hs_elems y hys) hb hyid
  rw [ht2]
  have hfinal : ([a] ++ [b]).Sublist (acc2 ++ t2) :=
    List.Sublist.append (List.singleton_sublist.mpr haacc)
      (List.singleton_sublist.mpr (hyb ▸ hyt2))
  simpa using hfinal

/-- C6 counterexample: two hosts tying on free memory where the one owning
more VMs comes first in the input.  The claimed tie-break by ascending VM
count would put `exTieB` (1 VM) before `exTieA` (2 VMs), but the code keeps
the input order: the intermediate VM-count sorts of `tmp_a` are overwritten
by the final assignment, which sorts by free memory only. -/
theorem most_empty_ranking_cex :
    exTieA.memory_free = exTieB.memory_free ∧
    exTieB.amount_of_vms < exTieA.amount_of_vms ∧
    most_empty_stack [exTieA, exTieB] = [exTieA, exTieB] ∧
    most_empty_stack [exTieA, exTieB] ≠ [exTieB, exTieA] := by
  decide

/-- C6 amended: both most-empty rankings return a permutation of their
input sorted descending by free memory (`memory_free`, and
`capacity_available` in the simplified variant) — a deterministic order —
with ties left in input order (stability: every equal-free-memory pair of
the input keeps its relative order in the output), not broken by ascending
VM count; the main variant is stated under fleet-unique host ids. -/
theorem most_empty_ranking_amended :
    (∀ l : List Host, (l.map Host.host_id).Nodup →
      (most_empty_stack l).Perm l ∧
      (most_empty_stack l).Pairwise (fun a b => b.memory_free ≤ a.memory_free) ∧
      (∀ a b : Host, [a, b].Sublist l → a.memory_free = b.memory_free →
        [a, b].Sublist (most_empty_stack l))) ∧
    (∀ l2 : List Seg2.Host,
      (Seg2.most_empty_stack l2).Perm l2 ∧
      (Seg2.most_empty_stack l2).Pairwise
        (fun a b => b.capacity_available ≤ a.capacity_available) ∧
      (∀ a b : Seg2.Host, [a, b].Sublist l2 →
        a.capacity_available = b.capacity_available →
        [a, b].Sublist (Seg2.most_empty_stack l2))) := by
  constructor
  · intro l hnodup
    refine ⟨?_, ?_, fun a b hab hmf => most_empty_stack_stable hnodup hab hmf⟩
    · by_cases hne : l = []
      · subst hne
        exact List.Perm.refl _
      · rw [most_empty_stack_eq l hne]
        obtain ⟨t, ht, hsub⟩ := dedupHosts_append ((tmpB l).insertionSort descMemFree) []
        have hmemsort : ∀ x : Host,
            x ∈ (tmpB l).insertionSort descMemFree ↔ x ∈ tmpB l := fun x =>
          (List.perm_insertionSort descMemFree (tmpB l)).mem_iff
        apply List.perm_of_nodup_nodup_toFinset_eq
        · exact List.Nodup.of_map Host.host_id
            (dedupHosts_ids_nodup ((tmpB l).insertionSort descMemFree) [] (by simp))
        · exact List.Nodup.of_map Host.host_id hnodup
        · ext x
          simp only [List.mem_toFinset]
          constructor
          · intro hx
            rw [ht] at hx
            simp only [List.nil_append] at hx
            exact tmpB_subset l x ((hmemsort x).mp (hsub.subset hx))
          · intro hx
            obtain ⟨y, hy, hyid⟩ := dedupHosts_covers
              ((tmpB l).insertionSort descMemFree) [] x
              ((hmemsort x).mpr (tmpB_mem_self l x hx))
            have hyl : y ∈ l := by
              have hy2 : y ∈ dedupHosts ((tmpB l).insertionSort descMemFree) [] := hy
              rw [ht] at hy2
              simp only [List.nil_append] at hy2
              exact tmpB_subset l y ((hmemsort y).mp (hsub.subset hy2))
            have heq : y = x := List.inj_on_of_nodup_map hnodup hyl hx hyid
            rw [← heq]
            exact hy
    · by_cases hne : l = []
      · subst hne
        simp [most_empty_stack, dedupHosts]
      · rw [most_empty_stack_eq l hne]
        obtain ⟨t, ht, hsub⟩ := dedupHosts_append ((tmpB l).insertionSort descMemFree) []
        have hsorted : ((tmpB l).insertionSort descMemFree).Pairwise descMemFree :=
          List.sorted_insertionSort descMemFree (tmpB l)
        have hsubl : (dedupHosts ((tmpB l).insertionSort descMemFree) []).Sublist
            ((tmpB l).insertionSort descMemFree) := by
          rw [ht]
          simpa using hsub
        exact List.Pairwise.sublist hsubl hsorted
  · intro l2
    refine ⟨List.perm_insertionSort Seg2.descCap l2,
      List.sorted_insertionSort Seg2.descCap l2, ?_⟩
    intro a b hab hcap
    exact List.pair_sublist_insertionSort (le_of_eq hcap.symm) hab

/-- C6 witness: the amended conclusions — permutation, descending order
and ties-in-input-order — at a concrete two-host list with a free-memory
tie. -/
theorem most_empty_ranking_amended_witness :
    (most_empty_stack [exTieA, exTieB]).Perm [exTieA, exTieB] ∧
    (most_empty_stack [exTieA, exTieB]).Pairwise
      (fun a b => b.memory_free ≤ a.memory_free) ∧
    (∀ a b : Host, [a, b].Sublist [exTieA, exTieB] →
      a.memory_free = b.memory_free →
      [a, b].Sublist (most_empty_stack [exTieA, exTieB])) :=
  most_empty_ranking_amended.1 [exTieA, exTieB] (by decide)
